import Mathlib

/-!
Verification development for `utils/dataloader_utils.py` of the
MIC-DKFZ/DetectionAndRegression repository.

Shallow embedding conventions:
* Python lists of integer identifiers become `List ℕ`; slicing `t[:k]`, `t[k:]`
  become `List.take` / `List.drop` (both clamp, exactly like Python slices).
* numpy float arithmetic inside `get_patch_crop_coords` is modelled by exact
  rational arithmetic (`ℚ`); `np.round` is round-half-to-even and
  `.astype(int)` truncates toward zero, both modelled explicitly.
* machine integers are modelled by `ℕ` / `ℤ` (no value in the modelled code
  approaches an overflow boundary).
* code that can raise (`ZeroDivisionError`, `IndexError`, `AssertionError`)
  is modelled with `Except String`.
-/

namespace DLU

/-! ## fold_generator (dataloader_utils.py lines 48-125)

The generator keeps three index lists `tr_ix`, `val_ix`, `te_ix` into the
shuffled array `cv_names`.  `init_indices` and `new_fold` are pure list
programs; `get_fold_names` shuffles `np.arange(len_data)` with the seeded
RandomState, initialises the indices over `range l` and then emits
`n_splits` records, mutating the state with `new_fold` and the fold counter
`self.fold` (which is NOT reset between calls) in between. -/

/-- State `(tr_ix, val_ix, te_ix)` of the fold generator. -/
structure FoldState where
  tr : List ℕ
  val : List ℕ
  te : List ℕ
deriving DecidableEq, Repr

/-- One emitted record `[train_names, val_names, test_names, fold]`. -/
structure FoldRec where
  train : List ℕ
  vali : List ℕ
  test : List ℕ
  fold : ℕ
deriving DecidableEq, Repr

/-- `int(np.ceil(l / float(n)))` for `n ≥ 1` (the float division is exact for
all dataset sizes in scope). -/
def npCeilDiv (l n : ℕ) : ℕ := (l + n - 1) / n

/-- `fold_generator.init_indices` (lines 75-89), run on `t = range l`:
`te = t[:slicer]; tr = t[slicer:]; val = tr[:slicer]; tr = tr[slicer:]`. -/
def init_indices (t : List ℕ) (slicer : ℕ) : FoldState :=
  ⟨(t.drop slicer).drop slicer, (t.drop slicer).take slicer, t.take slicer⟩

/-- `fold_generator.new_fold` (lines 91-107).  `fold` is the value of
`self.fold` at call time.  The Python guard `self.fold == self.n_splits - 2`
is written `fold + 2 = n`: for `n ≥ 2` this is the same equation, and for
`n = 1` Python compares against `-1` which a nonnegative counter never
equals, just as `fold + 2 = 1` never holds.  `val[-1:]` is
`drop (length - 1)` and `val[:-1]` is `take (length - 1)`. -/
def new_fold (n s missing md fold : ℕ) (st : FoldState) : FoldState :=
  let slicer := if fold < missing then s - 1 else s
  let temp := if fold + 2 = n ∧ md = 1 then
      st.te ++ st.val.drop (st.val.length - 1) else st.te
  let val1 := if fold + 2 = n ∧ md = 1 then
      st.val.take (st.val.length - 1) else st.val
  ⟨st.tr.drop slicer ++ temp, st.tr.take slicer, val1⟩

/-- The loop body of `get_fold_names` (lines 119-123): with `j` iterations
remaining and fold counter `fold`, emit the current record, then advance with
`new_fold` and `self.fold += 1`. -/
def fold_loop (n s missing md : ℕ) : ℕ → ℕ → FoldState → List FoldRec
  | 0, _, _ => []
  | j + 1, fold, st =>
    ⟨st.tr, st.val, st.te, fold⟩ ::
      fold_loop n s missing md j (fold + 1) (new_fold n s missing md fold st)

/-- Image of a fold record under the fancy indexing `cv_names[ix_list]`. -/
def mapRec (f : ℕ → ℕ) (r : FoldRec) : FoldRec :=
  ⟨r.train.map f, r.vali.map f, r.test.map f, r.fold⟩

/-- Image of the generator state under a renaming of identifiers. -/
def mapState (f : ℕ → ℕ) (st : FoldState) : FoldState :=
  ⟨st.tr.map f, st.val.map f, st.te.map f⟩

/-- `self.missing` as computed by `init_indices` (lines 81-84). -/
def missingOf (l n : ℕ) : ℕ := if 0 < l % n then n - l % n else 0

/-- The body of `get_fold_names` (lines 110-125) with the shuffled
`cv_names` abstracted as `cv` (every seed produces some permutation `cv` of
`range len_data`) and the initial value of the fold counter `self.fold`
exposed as `fold0` (it is `0` only for a freshly constructed generator). -/
def foldNamesFrom (cv : List ℕ) (n fold0 : ℕ) : List FoldRec :=
  let l := cv.length
  let s := npCeilDiv l n
  let md := l % n
  let missing := missingOf l n
  (fold_loop n s missing md n fold0 (init_indices (List.range l) s)).map
    (mapRec (fun i => cv.getD i 0))

/-- A first call of `get_fold_names` on a fresh generator. -/
def foldNamesCore (cv : List ℕ) (n : ℕ) : List FoldRec := foldNamesFrom cv n 0

/-- `get_fold_names` on a fresh generator, with the only failing control path
made explicit: `init_indices` divides by `float(n_splits)`, so `n_splits = 0`
raises `ZeroDivisionError`; no other validation exists anywhere in the class. -/
def get_fold_names (cv : List ℕ) (n : ℕ) : Except String (List FoldRec) :=
  if n = 0 then .error "ZeroDivisionError" else .ok (foldNamesCore cv n)

/-- `get_fold_names` with the persistent object state (the fold counter)
threaded explicitly: a call starting at counter `c` emits folds `c, c+1, …`
and leaves the counter at `c + n_splits`. -/
def get_fold_names_stateful (foldCtr : ℕ) (cv : List ℕ) (n : ℕ) :
    Except String (List FoldRec × ℕ) :=
  if n = 0 then .error "ZeroDivisionError"
  else .ok (foldNamesFrom cv n foldCtr, foldCtr + n)

/-- Two successive `get_fold_names` calls on the same generator object. -/
def twoCalls (cv : List ℕ) (n : ℕ) :
    Except String (List FoldRec × List FoldRec) :=
  match get_fold_names_stateful 0 cv n with
  | .error e => .error e
  | .ok (first, ctr) =>
    match get_fold_names_stateful ctr cv n with
    | .error e => .error e
    | .ok (second, _) => .ok (first, second)

/-- Convenience: the joined content `tr ++ val ++ te` of a generator state. -/
def stJoin (st : FoldState) : List ℕ := st.tr ++ st.val ++ st.te

/-- Convenience: the joined content of an emitted record. -/
def recJoin (r : FoldRec) : List ℕ := r.train ++ r.vali ++ r.test

theorem count_take_drop (a : ℕ) (xs : List ℕ) (k : ℕ) :
    (xs.take k).count a + (xs.drop k).count a = xs.count a := by
  rw [← List.count_append, List.take_append_drop]

theorem new_fold_join_perm (n s missing md fold : ℕ) (st : FoldState) :
    List.Perm (stJoin (new_fold n s missing md fold st)) (stJoin st) := by
  rw [List.perm_iff_count]
  intro a
  simp only [stJoin, new_fold, List.count_append]
  split_ifs <;>
    (have e1 := count_take_drop a st.tr (s - 1)
     have e2 := count_take_drop a st.tr s
     have e3 := count_take_drop a st.val (st.val.length - 1)
     simp only [List.count_append] at *
     omega)

theorem init_indices_join_perm (t : List ℕ) (s : ℕ) :
    List.Perm (stJoin (init_indices t s)) t := by
  rw [List.perm_iff_count]
  intro a
  simp only [stJoin, init_indices, List.count_append]
  have e1 := count_take_drop a t s
  have e2 := count_take_drop a (t.drop s) s
  omega

theorem fold_loop_mem_perm (n s missing md : ℕ) :
    ∀ (j fold : ℕ) (st : FoldState) (r : FoldRec),
      r ∈ fold_loop n s missing md j fold st → List.Perm (recJoin r) (stJoin st) := by
  intro j
  induction j with
  | zero => intro fold st r hr; simp [fold_loop] at hr
  | succ j ih =>
    intro fold st r hr
    simp only [fold_loop, List.mem_cons] at hr
    rcases hr with rfl | hr
    · exact List.Perm.refl _
    · exact (ih _ _ _ hr).trans (new_fold_join_perm n s missing md fold st)

theorem mapState_init (f : ℕ → ℕ) (t : List ℕ) (s : ℕ) :
    mapState f (init_indices t s) = init_indices (t.map f) s := by
  simp [mapState, init_indices, List.map_take, List.map_drop]

theorem mapState_new_fold (f : ℕ → ℕ) (n s missing md fold : ℕ) (st : FoldState) :
    mapState f (new_fold n s missing md fold st)
      = new_fold n s missing md fold (mapState f st) := by
  simp only [mapState, new_fold, List.length_map]
  split_ifs <;>
    simp [List.map_take, List.map_drop, List.map_append]

theorem fold_loop_map (f : ℕ → ℕ) (n s missing md : ℕ) :
    ∀ (j fold : ℕ) (st : FoldState),
      fold_loop n s missing md j fold (mapState f st)
        = (fold_loop n s missing md j fold st).map (mapRec f) := by
  intro j
  induction j with
  | zero => intro fold st; simp [fold_loop]
  | succ j ih =>
    intro fold st
    simp only [fold_loop, List.map_cons]
    refine congrArg₂ _ rfl ?_
    rw [← mapState_new_fold, ih]

theorem range_map_getD (cv : List ℕ) :
    (List.range cv.length).map (fun i => cv.getD i 0) = cv := by
  apply List.ext_getElem
  · simp
  · intro i h1 h2
    simp only [List.getElem_map, List.getElem_range]
    exact List.getD_eq_getElem cv 0 h2

theorem foldNamesFrom_eq_loop (cv : List ℕ) (n fold0 : ℕ) :
    foldNamesFrom cv n fold0
      = fold_loop n (npCeilDiv cv.length n) (missingOf cv.length n)
          (cv.length % n) n fold0 (init_indices cv (npCeilDiv cv.length n)) := by
  unfold foldNamesFrom
  rw [← fold_loop_map, mapState_init, range_map_getD]

/-- The effective `slicer` value used by `new_fold` at fold counter `k`
(line 93-95: `slicer - 1` while `fold < missing`). -/
def sprime (s missing k : ℕ) : ℕ := if k < missing then s - 1 else s

/-- Total `slicer` schedule consumed by a run of `j` further folds starting
at fold counter `k`; the last two folds of a run consume none. -/
def schedS (s missing : ℕ) : ℕ → ℕ → ℕ
  | _, 0 => 0
  | _, 1 => 0
  | _, 2 => 0
  | k, j + 3 => sprime s missing k + schedS s missing (k + 1) (j + 2)

/-- Split `t` into consecutive chunks starting at offset `c`, with nominal
chunk lengths `L`. -/
def chunkSplit (t : List ℕ) : ℕ → List ℕ → List (List ℕ)
  | _, [] => []
  | c, a :: r => (t.drop c).take a :: chunkSplit t (c + a) r

/-- Nominal test-subset lengths over a run of `j` folds starting at fold
counter `k`, when the current state has `te`-length `A` and `val`-length `B`. -/
def lensList (s missing : ℕ) : ℕ → ℕ → ℕ → ℕ → List ℕ
  | 0, _, _, _ => []
  | 1, _, A, _ => [A]
  | j + 2, k, A, B => A :: lensList s missing (j + 1) (k + 1) B (sprime s missing k)

theorem schedS_succ (s missing k j : ℕ) (h : 2 ≤ j) :
    schedS s missing k (j + 1) = sprime s missing k + schedS s missing (k + 1) j := by
  match j, h with
  | (j + 2), _ => rfl

theorem lensList_succ (s missing k A B j : ℕ) (h : 1 ≤ j) :
    lensList s missing (j + 1) k A B
      = A :: lensList s missing j (k + 1) B (sprime s missing k) := by
  match j, h with
  | (j + 1), _ => rfl

theorem new_fold_te (n s missing md k : ℕ) (st : FoldState) (hmd : md ≠ 1) :
    (new_fold n s missing md k st).te = st.val := by
  simp only [new_fold]
  rw [if_neg (show ¬(k + 2 = n ∧ md = 1) from fun h => hmd h.2)]

theorem new_fold_val (n s missing md k : ℕ) (st : FoldState) :
    (new_fold n s missing md k st).val = st.tr.take (sprime s missing k) := rfl

theorem new_fold_tr (n s missing md k : ℕ) (st : FoldState) (hmd : md ≠ 1) :
    (new_fold n s missing md k st).tr
      = st.tr.drop (sprime s missing k) ++ st.te := by
  simp only [new_fold, sprime]
  rw [if_neg (show ¬(k + 2 = n ∧ md = 1) from fun h => hmd h.2)]

theorem chunkSplit_flatten (t : List ℕ) :
    ∀ (L : List ℕ) (c : ℕ), c + L.sum = t.length →
      (chunkSplit t c L).flatten = t.drop c := by
  intro L
  induction L with
  | nil =>
    intro c hc
    simp only [chunkSplit, List.flatten_nil]
    exact (List.drop_eq_nil_of_le (by simp at hc; omega)).symm
  | cons a r ih =>
    intro c hc
    simp only [chunkSplit, List.flatten_cons]
    rw [ih (c + a) (by simp at hc ⊢; omega)]
    exact List.drop_take_append_drop t c a

theorem chunkSplit_lengths (t : List ℕ) :
    ∀ (L : List ℕ) (c : ℕ), c + L.sum ≤ t.length →
      (chunkSplit t c L).map List.length = L := by
  intro L
  induction L with
  | nil => intro c hc; rfl
  | cons a r ih =>
    intro c hc
    simp only [chunkSplit, List.map_cons]
    rw [ih (c + a) (by simp at hc ⊢; omega)]
    simp only [List.length_take, List.length_drop]
    congr 1
    simp at hc
    omega

theorem lensList_sum (s missing : ℕ) :
    ∀ (j k A B : ℕ), 2 ≤ j →
      (lensList s missing j k A B).sum = A + B + schedS s missing k j := by
  intro j
  induction j with
  | zero => intro k A B h; omega
  | succ j ih =>
    intro k A B h
    rcases Nat.lt_or_ge j 2 with hj | hj
    · -- j + 1 = 2
      have hj1 : j = 1 := by omega
      subst hj1
      simp [lensList, schedS]
    · rw [lensList_succ s missing k A B j (by omega), List.sum_cons,
        ih (k + 1) B (sprime s missing k) hj, schedS_succ s missing k j hj]
      omega

theorem lensList_expand (s missing : ℕ) :
    ∀ (j k A B : ℕ), lensList s missing (j + 2) k A B
      = A :: B :: (List.range j).map (fun i => sprime s missing (k + i)) := by
  intro j
  induction j with
  | zero => intro k A B; rfl
  | succ j ih =>
    intro k A B
    show A :: lensList s missing (j + 2) (k + 1) B (sprime s missing k) = _
    rw [ih (k + 1) B (sprime s missing k)]
    rw [List.range_succ_eq_map, List.map_cons, List.map_map]
    have harg : (fun i => sprime s missing (k + i)) ∘ Nat.succ
        = fun i => sprime s missing (k + 1 + i) := by
      funext i
      have : k + Nat.succ i = k + 1 + i := by omega
      simp [Function.comp, this]
    rw [harg]
    simp [Nat.add_zero]

/-- Central invariant of the rotation: as long as the `mod == 1` special case
is disabled (`md ≠ 1`), a run of `j` folds whose state consists of three
consecutive slices of `t` (with the already-emitted prefix recycled at the
back of `tr`) emits test subsets that are exactly the consecutive chunks of
`t` described by `lensList`. -/
theorem fold_loop_tests_chunks (t : List ℕ) (n s missing md : ℕ) (hmd : md ≠ 1) :
    ∀ (j k c A B : ℕ) (st : FoldState),
      st.te = (t.drop c).take A →
      (2 ≤ j → st.val = (t.drop (c + A)).take B
        ∧ c + A + B + schedS s missing k j = t.length) →
      (3 ≤ j → st.tr = t.drop (c + A + B) ++ t.take c) →
      (fold_loop n s missing md j k st).map (fun r => r.test)
        = chunkSplit t c (lensList s missing j k A B) := by
  intro j
  induction j with
  | zero => intro k c A B st hte hval htr; rfl
  | succ j ih =>
    intro k c A B st hte hval htr
    cases j with
    | zero =>
      simp only [fold_loop, lensList, chunkSplit, List.map_cons, List.map_nil, hte]
    | succ j' =>
      obtain ⟨hv, hsum⟩ := hval (by omega)
      have hte2 : (new_fold n s missing md k st).te = (t.drop (c + A)).take B := by
        rw [new_fold_te n s missing md k st hmd, hv]
      have hval2 : 2 ≤ j' + 1 →
          (new_fold n s missing md k st).val
              = (t.drop (c + A + B)).take (sprime s missing k)
          ∧ c + A + B + sprime s missing k
              + schedS s missing (k + 1) (j' + 1) = t.length := by
        intro h2
        have htr1 := htr (by omega)
        have hsched := schedS_succ s missing k (j' + 1) (by omega)
        have hlen : sprime s missing k ≤ (t.drop (c + A + B)).length := by
          rw [List.length_drop]; omega
        constructor
        · rw [new_fold_val, htr1, List.take_append_of_le_length hlen]
        · omega
      have htr2 : 3 ≤ j' + 1 →
          (new_fold n s missing md k st).tr
            = t.drop (c + A + B + sprime s missing k) ++ t.take (c + A) := by
        intro h3
        have htr1 := htr (by omega)
        have hsched := schedS_succ s missing k (j' + 1) (by omega)
        have hlen : sprime s missing k ≤ (t.drop (c + A + B)).length := by
          rw [List.length_drop]; omega
        rw [new_fold_tr n s missing md k st hmd, htr1,
          List.drop_append_of_le_length hlen, List.drop_drop, hte,
          List.append_assoc, ← List.take_add]
      have hrec := ih (k + 1) (c + A) B (sprime s missing k)
        (new_fold n s missing md k st) hte2 hval2 htr2
      show st.te :: (fold_loop n s missing md (j' + 1) (k + 1)
            (new_fold n s missing md k st)).map (fun r => r.test)
          = (t.drop c).take A :: chunkSplit t (c + A)
              (lensList s missing (j' + 1) (k + 1) B (sprime s missing k))
      exact congrArg₂ List.cons hte hrec

theorem take_eq_take_min (xs : List ℕ) (k : ℕ) :
    xs.take k = xs.take (min k xs.length) := by
  rcases Nat.le_total k xs.length with h | h
  · rw [Nat.min_eq_left h]
  · rw [Nat.min_eq_right h, List.take_of_length_le h, List.take_length]

theorem init_te (t : List ℕ) (s : ℕ) :
    (init_indices t s).te = (t.drop 0).take s := by
  simp [init_indices]

theorem init_val (t : List ℕ) (s : ℕ) :
    (init_indices t s).val = (t.drop (0 + s)).take (min s (t.length - s)) := by
  show (t.drop s).take s = _
  rw [take_eq_take_min (t.drop s) s, List.length_drop]
  simp

theorem init_tr (t : List ℕ) (s : ℕ) :
    (init_indices t s).tr
      = t.drop (0 + s + min s (t.length - s)) ++ t.take 0 := by
  show (t.drop s).drop s = _
  rw [List.drop_drop, List.take_zero, List.append_nil]
  rcases Nat.le_total s (t.length - s) with h | h
  · rw [Nat.min_eq_left h]; congr 1; omega
  · rw [Nat.min_eq_right h]
    rw [List.drop_eq_nil_of_le (by omega), List.drop_eq_nil_of_le (by omega)]

theorem npCeilDiv_eq (l n : ℕ) (hn : 1 ≤ n) :
    npCeilDiv l n = l / n + (if l % n = 0 then 0 else 1) := by
  have hl := Nat.div_add_mod l n
  have hr : l % n < n := Nat.mod_lt _ (by omega)
  rcases Nat.eq_zero_or_pos (l % n) with h0 | h0
  · have he : l + n - 1 = n * (l / n) + (n - 1) := by omega
    have hd : (n - 1) / n = 0 := Nat.div_eq_of_lt (by omega)
    rw [npCeilDiv, he, Nat.mul_add_div (show 0 < n by omega), hd]
    simp [h0]
  · have hee : n * (l / n + 1) = n * (l / n) + n := by ring
    have he : l + n - 1 = n * (l / n + 1) + (l % n - 1) := by omega
    have hd : (l % n - 1) / n = 0 := Nat.div_eq_of_lt (by omega)
    rw [npCeilDiv, he, Nat.mul_add_div (show 0 < n by omega), hd, if_neg (by omega)]

theorem schedS_add (s missing : ℕ) (hs : 1 ≤ s) : ∀ (j k : ℕ),
    schedS s missing k j + (min missing (k + (j - 2)) - min missing k)
      = (j - 2) * s := by
  intro j
  induction j using Nat.strong_induction_on with
  | _ j ih =>
    intro k
    match j with
    | 0 => simp [schedS]
    | 1 => simp [schedS]
    | 2 => simp [schedS]
    | (j + 3) =>
      have hrec := ih (j + 2) (by omega) (k + 1)
      have h22 : j + 2 - 2 = j := by omega
      have h32 : j + 3 - 2 = j + 1 := by omega
      rw [h22] at hrec
      have hm1 : (j + 1) * s = j * s + s := by ring
      rw [h32]
      show sprime s missing k + schedS s missing (k + 1) (j + 2) + _ = _
      simp only [sprime, Nat.min_def] at hrec ⊢
      split_ifs at hrec ⊢ <;> omega

theorem base_sum (l n : ℕ) (h2 : 2 ≤ n) (hln : n ≤ l) (hm : l % n ≠ 1) :
    0 + npCeilDiv l n + min (npCeilDiv l n) (l - npCeilDiv l n)
      + schedS (npCeilDiv l n) (missingOf l n) 0 n = l := by
  have hl := Nat.div_add_mod l n
  have hr : l % n < n := Nat.mod_lt _ (by omega)
  have hs := npCeilDiv_eq l n (by omega)
  have hs1 : 1 ≤ npCeilDiv l n := by
    rw [npCeilDiv, Nat.one_le_div_iff (by omega)]
    omega
  have hadd := schedS_add (npCeilDiv l n) (missingOf l n) hs1 n 0
  set q := l / n with hq
  set r := l % n with hrr
  rcases Nat.eq_zero_or_pos r with h0 | h0
  · -- r = 0 : s = q, missing = 0
    have hmiss : missingOf l n = 0 := by rw [missingOf, ← hrr, if_neg (by omega)]
    have hsq : npCeilDiv l n = q := by rw [hs]; simp [h0]
    rw [hmiss, hsq] at hadd
    rw [hsq, hmiss]
    have hA : (n - 2) * q = n * q - 2 * q := by rw [Nat.sub_mul]
    have hB : 2 * q ≤ n * q := Nat.mul_le_mul_right q h2
    omega
  · -- r ≥ 2 : s = q + 1, missing = n - r
    have hr2 : 2 ≤ r := by omega
    have hmiss : missingOf l n = n - r := by
      rw [missingOf, ← hrr, if_pos (by omega)]
    have hsq : npCeilDiv l n = q + 1 := by rw [hs, if_neg (by omega)]
    rw [hmiss, hsq] at hadd
    rw [hsq, hmiss]
    have hA : (n - 2) * (q + 1) = n * (q + 1) - 2 * (q + 1) := by rw [Nat.sub_mul]
    have hB : 2 * (q + 1) ≤ n * (q + 1) := Nat.mul_le_mul_right (q + 1) h2
    have hC : n * (q + 1) = n * q + n := by ring
    have hD : 2 * q ≤ n * q := Nat.mul_le_mul_right q h2
    omega

/-- Nominal test-subset lengths of a full fresh run of the generator. -/
def testLens (l n : ℕ) : List ℕ :=
  lensList (npCeilDiv l n) (missingOf l n) n 0 (npCeilDiv l n)
    (min (npCeilDiv l n) (l - npCeilDiv l n))

theorem testLens_sum (l n : ℕ) (h1 : 1 ≤ n) (hln : n ≤ l) (hm : l % n ≠ 1) :
    (testLens l n).sum = l := by
  rcases Nat.lt_or_ge n 2 with hn1 | hn2
  · have : n = 1 := by omega
    subst this
    show (lensList _ _ 1 0 _ _).sum = l
    simp only [lensList, List.sum_cons, List.sum_nil, npCeilDiv]
    omega
  · rw [testLens, lensList_sum _ _ n 0 _ _ hn2]
    have := base_sum l n hn2 hln hm
    omega

/-- For every admissible input with `l % n ≠ 1`, the emitted test subsets of
a fresh run are the consecutive chunks of `cv` of lengths `testLens`. -/
theorem foldNamesCore_tests (cv : List ℕ) (n : ℕ)
    (hln : n ≤ cv.length) (hm : cv.length % n ≠ 1) :
    (foldNamesCore cv n).map (fun r => r.test)
      = chunkSplit cv 0 (testLens cv.length n) := by
  rw [foldNamesCore, foldNamesFrom_eq_loop]
  exact fold_loop_tests_chunks cv n (npCeilDiv cv.length n)
    (missingOf cv.length n) (cv.length % n) hm n 0 0 (npCeilDiv cv.length n)
    (min (npCeilDiv cv.length n) (cv.length - npCeilDiv cv.length n))
    (init_indices cv (npCeilDiv cv.length n))
    (init_te cv _)
    (fun h2 => ⟨init_val cv _, by
      have := base_sum cv.length n h2 hln hm
      omega⟩)
    (fun _ => init_tr cv _)

theorem countP_mem_of_counts_zero (x : ℕ) :
    ∀ (L : List (List ℕ)), (L.map (List.count x)).sum = 0 →
      L.countP (fun te => decide (x ∈ te)) = 0 := by
  intro L
  induction L with
  | nil => intro h; rfl
  | cons a r ih =>
    intro h
    simp only [List.map_cons, List.sum_cons] at h
    have hx : x ∉ a := List.count_eq_zero.mp (by omega)
    rw [List.countP_cons, ih (by omega)]
    simp [hx]

theorem countP_mem_of_counts_one (x : ℕ) :
    ∀ (L : List (List ℕ)), (L.map (List.count x)).sum = 1 →
      L.countP (fun te => decide (x ∈ te)) = 1 := by
  intro L
  induction L with
  | nil => intro h; simp at h
  | cons a r ih =>
    intro h
    simp only [List.map_cons, List.sum_cons] at h
    rw [List.countP_cons]
    rcases Nat.eq_zero_or_pos (a.count x) with h0 | h0
    · have hx : x ∉ a := List.count_eq_zero.mp h0
      rw [ih (by omega)]
      simp [hx]
    · have hx : x ∈ a := List.count_pos_iff.mp h0
      rw [countP_mem_of_counts_zero x r (by omega)]
      simp [hx]

/-- Per-fold partition: every record of a fresh run carries three lists that
are pairwise disjoint and jointly exhaust the identifier list.  This holds
for every input (the `mod == 1` special case also only permutes content). -/
theorem foldNamesCore_partition (cv : List ℕ) (n : ℕ) (hnd : cv.Nodup) :
    ∀ r ∈ foldNamesCore cv n,
      (r.train.Disjoint r.vali ∧ r.train.Disjoint r.test ∧ r.vali.Disjoint r.test)
      ∧ ∀ x, (x ∈ cv ↔ x ∈ r.train ∨ x ∈ r.vali ∨ x ∈ r.test) := by
  intro r hr
  rw [foldNamesCore, foldNamesFrom_eq_loop] at hr
  have hperm : List.Perm (recJoin r) cv :=
    (fold_loop_mem_perm _ _ _ _ _ _ _ r hr).trans (init_indices_join_perm cv _)
  have hnd2 : (recJoin r).Nodup := (hperm.nodup_iff).mpr hnd
  constructor
  · simp only [recJoin, List.nodup_append, List.disjoint_append_right,
      List.disjoint_append_left] at hnd2
    tauto
  · intro x
    rw [← hperm.mem_iff]
    simp only [recJoin, List.mem_append]
    tauto

/-- Exactly-once property of the test subsets, valid when `l % n ≠ 1`. -/
theorem tests_exactly_once (cv : List ℕ) (n : ℕ) (h1 : 1 ≤ n)
    (hln : n ≤ cv.length) (hnd : cv.Nodup) (hm : cv.length % n ≠ 1) :
    ∀ x ∈ cv, (foldNamesCore cv n).countP (fun r => decide (x ∈ r.test)) = 1 := by
  intro x hx
  have htests := foldNamesCore_tests cv n hln hm
  have hsum := testLens_sum cv.length n h1 hln hm
  have hflat : ((foldNamesCore cv n).map (fun r => r.test)).flatten = cv := by
    rw [htests, chunkSplit_flatten cv _ 0 (by omega), List.drop_zero]
  have hcount :
      (((foldNamesCore cv n).map (fun r => r.test)).map (List.count x)).sum = 1 := by
    rw [← List.count_flatten, hflat]
    exact List.count_eq_one_of_mem hnd hx
  have hcp := countP_mem_of_counts_one x _ hcount
  rw [List.countP_map] at hcp
  exact hcp

theorem sprime_range_eq (s missing k : ℕ) (hmk : missing ≤ k) :
    (List.range k).map (fun i => sprime s missing (0 + i))
      = List.replicate missing (s - 1) ++ List.replicate (k - missing) s := by
  obtain ⟨d, rfl⟩ : ∃ d, k = missing + d := ⟨k - missing, by omega⟩
  rw [List.range_add, List.map_append, List.map_map, Nat.add_sub_cancel_left]
  congr 1
  · rw [List.eq_replicate_iff]
    refine ⟨by simp, ?_⟩
    intro b hb
    simp only [List.mem_map, List.mem_range] at hb
    obtain ⟨i, hi, rfl⟩ := hb
    simp only [sprime]
    rw [if_pos (by omega)]
  · rw [List.eq_replicate_iff]
    refine ⟨by simp, ?_⟩
    intro b hb
    simp only [List.mem_map, List.mem_range, Function.comp] at hb
    obtain ⟨i, hi, rfl⟩ := hb
    simp only [sprime]
    rw [if_neg (by omega)]

/-- Explicit shape of the test-subset lengths when `l % n ≥ 2`: folds `0` and
`1` get `slice_len`, the next `n - (l % n)` folds get `slice_len - 1`, the
final `l % n - 2` folds get `slice_len` again. -/
theorem testLens_explicit (l n : ℕ) (hn : 1 ≤ n) (hln : n ≤ l)
    (hm2 : 2 ≤ l % n) :
    testLens l n = npCeilDiv l n :: npCeilDiv l n ::
      (List.replicate (n - l % n) (npCeilDiv l n - 1)
        ++ List.replicate (l % n - 2) (npCeilDiv l n)) := by
  have hrn : l % n < n := Nat.mod_lt _ (by omega)
  have hl := Nat.div_add_mod l n
  have hs := npCeilDiv_eq l n hn
  have hsq : npCeilDiv l n = l / n + 1 := by rw [hs, if_neg (by omega)]
  have hmiss : missingOf l n = n - l % n := by rw [missingOf, if_pos (by omega)]
  have hD : 2 * (l / n) ≤ n * (l / n) := Nat.mul_le_mul_right (l / n) (by omega)
  have hB0 : min (npCeilDiv l n) (l - npCeilDiv l n) = npCeilDiv l n := by
    rw [hsq]
    exact Nat.min_eq_left (by omega)
  obtain ⟨k, hk⟩ : ∃ k, n = k + 2 := ⟨n - 2, by omega⟩
  subst hk
  have hc : k - ((k + 2) - l % (k + 2)) = l % (k + 2) - 2 := by omega
  rw [testLens, hB0, lensList_expand, hmiss,
    sprime_range_eq (npCeilDiv l (k + 2)) ((k + 2) - l % (k + 2)) k (by omega),
    hc]

theorem fold_loop_folds (n s missing md : ℕ) :
    ∀ (j f : ℕ) (st : FoldState),
      (fold_loop n s missing md j f st).map (fun r => r.fold)
        = List.range' f j := by
  intro j
  induction j with
  | zero => intro f st; rfl
  | succ j ih =>
    intro f st
    simp only [fold_loop, List.map_cons, ih]
    rfl

theorem fold_loop_length (n s missing md : ℕ) :
    ∀ (j f : ℕ) (st : FoldState),
      (fold_loop n s missing md j f st).length = j := by
  intro j
  induction j with
  | zero => intro f st; rfl
  | succ j ih =>
    intro f st
    simp only [fold_loop, List.length_cons, ih]

/-- Claim C1 (amended): for every seed (modelled as an arbitrary Nodup
permutation `cv` of the identifier set), every `n_splits ≥ 1` and
`len(ids) ≥ n_splits`, each fold record's train/val/test lists are pairwise
disjoint and jointly exhaust the identifier set, and — provided
`len(ids) % n_splits ≠ 1` — every identifier appears in the test subset of
exactly one fold.  (When `len(ids) % n_splits = 1` and `n_splits ∈ {2, 3}`
the special case in `new_fold` removes a not-yet-tested identifier, see the
counterexample.) -/
theorem claim_C1_amended (cv : List ℕ) (n : ℕ) (h1 : 1 ≤ n)
    (hln : n ≤ cv.length) (hnd : cv.Nodup) (hm : cv.length % n ≠ 1) :
    (∀ r ∈ foldNamesCore cv n,
        (r.train.Disjoint r.vali ∧ r.train.Disjoint r.test
          ∧ r.vali.Disjoint r.test)
        ∧ ∀ x, (x ∈ cv ↔ x ∈ r.train ∨ x ∈ r.vali ∨ x ∈ r.test))
    ∧ ∀ x ∈ cv,
        (foldNamesCore cv n).countP (fun r => decide (x ∈ r.test)) = 1 :=
  ⟨foldNamesCore_partition cv n hnd, tests_exactly_once cv n h1 hln hnd hm⟩

/-- Witness for C1 at `ids = range 5`, `n_splits = 3` (remainder `2`). -/
theorem claim_C1_witness :
    (1 ≤ 3 ∧ 3 ≤ (List.range 5).length ∧ (List.range 5).Nodup
      ∧ (List.range 5).length % 3 ≠ 1)
    ∧ ∀ x ∈ List.range 5,
        (foldNamesCore (List.range 5) 3).countP
          (fun r => decide (x ∈ r.test)) = 1 :=
  ⟨by decide, (claim_C1_amended (List.range 5) 3 (by decide) (by decide)
      (by decide) (by decide)).2⟩

/-- Counterexample to C1 as stated: with 7 identifiers and 3 splits
(`7 % 3 = 1`), the `mod == 1` special case hands identifier `cv[6]` from
`val` back to `train` and the last fold's test subset comes out empty, so
`cv[6]` never appears in any test subset; the test lengths `[3, 3, 0]`
depend only on `len(ids)` and `n_splits`, hence this happens for every
seed. -/
theorem claim_C1_counterexample :
    (List.range 7).Nodup ∧ 3 ≤ (List.range 7).length
    ∧ ((foldNamesCore (List.range 7) 3).map fun r => r.test.length) = [3, 3, 0]
    ∧ (foldNamesCore (List.range 7) 3).countP
        (fun r => decide ((6 : ℕ) ∈ r.test)) = 0 := by
  decide

/-- Claim C7 (amended): when `remainder = len(ids) % n_splits ≥ 2`, folds 0
and 1 have test length `slice_len`, the following `n_splits - remainder`
folds have `slice_len - 1`, and the final `remainder - 2` folds have
`slice_len` again; the test subsets exactly partition the identifiers.  (The
claim's placement — first `n_splits - remainder` folds long, all later folds
short — is wrong, see the counterexample.) -/
theorem claim_C7_amended (cv : List ℕ) (n : ℕ) (hn : 1 ≤ n)
    (hln : n ≤ cv.length) (hnd : cv.Nodup) (hm2 : 2 ≤ cv.length % n) :
    ((foldNamesCore cv n).map fun r => r.test.length)
        = npCeilDiv cv.length n :: npCeilDiv cv.length n ::
          (List.replicate (n - cv.length % n) (npCeilDiv cv.length n - 1)
            ++ List.replicate (cv.length % n - 2) (npCeilDiv cv.length n))
    ∧ ∀ x ∈ cv,
        (foldNamesCore cv n).countP (fun r => decide (x ∈ r.test)) = 1 := by
  have hm : cv.length % n ≠ 1 := by omega
  refine ⟨?_, tests_exactly_once cv n hn hln hnd hm⟩
  have htests := foldNamesCore_tests cv n hln hm
  have hsum := testLens_sum cv.length n hn hln hm
  have h3 := chunkSplit_lengths cv (testLens cv.length n) 0 (by omega)
  rw [← htests, List.map_map] at h3
  have h2 : (foldNamesCore cv n).map (fun r => r.test.length)
      = testLens cv.length n := h3
  rw [h2, testLens_explicit cv.length n hn hln hm2]

/-- Witness for C7 at `ids = range 5`, `n_splits = 3`. -/
theorem claim_C7_witness :
    (1 ≤ 3 ∧ 3 ≤ (List.range 5).length ∧ (List.range 5).Nodup
      ∧ 2 ≤ (List.range 5).length % 3)
    ∧ ((foldNamesCore (List.range 5) 3).map fun r => r.test.length)
        = npCeilDiv (List.range 5).length 3 :: npCeilDiv (List.range 5).length 3 ::
          (List.replicate (3 - (List.range 5).length % 3)
              (npCeilDiv (List.range 5).length 3 - 1)
            ++ List.replicate ((List.range 5).length % 3 - 2)
              (npCeilDiv (List.range 5).length 3)) :=
  ⟨by decide, (claim_C7_amended (List.range 5) 3 (by decide) (by decide)
      (by decide) (by decide)).1⟩

/-- Counterexample to C7 as stated: for 5 identifiers and 3 splits
(`slice_len = 2`, `remainder = 2`), the claim predicts test lengths
`[2, 1, 1]` (first `n_splits - remainder = 1` fold long, later folds short),
but the generator produces `[2, 2, 1]`. -/
theorem claim_C7_counterexample :
    ((foldNamesCore (List.range 5) 3).map fun r => r.test.length) = [2, 2, 1]
    ∧ [2, 2, 1] ≠ [2, 1, 1] := by
  decide

/-- Claim C8 (amended): the fold sequence is a pure function of the
seed-determined shuffle, `n_splits`, and the generator's persistent fold
counter; the emitted fold indices of a call starting at counter `c` are
`c, c+1, …, c + n_splits - 1` (`0, …, n_splits - 1` only for the first
call), so repeated calls on the same generator are not byte-identical. -/
theorem claim_C8_amended (cv : List ℕ) (n c : ℕ) :
    ((foldNamesFrom cv n c).map fun r => r.fold) = List.range' c n := by
  rw [foldNamesFrom_eq_loop]
  exact fold_loop_folds n _ _ _ n c _

/-- Counterexample to C8 as stated: two successive `get_fold_names` calls on
the same generator object (same seed) return different sequences — the fold
indices continue at `n_splits`, and with `len % n_splits = 1` even the test
subsets differ, because `self.fold` is never reset. -/
theorem claim_C8_counterexample :
    (get_fold_names_stateful 0 (List.range 7) 3
        = .ok (foldNamesCore (List.range 7) 3, 3))
    ∧ (get_fold_names_stateful 3 (List.range 7) 3
        = .ok (foldNamesFrom (List.range 7) 3 3, 6))
    ∧ ((foldNamesCore (List.range 7) 3).map fun r => r.fold) = [0, 1, 2]
    ∧ ((foldNamesFrom (List.range 7) 3 3).map fun r => r.fold) = [3, 4, 5]
    ∧ ((foldNamesCore (List.range 7) 3).map fun r => r.test)
        = [[0, 1, 2], [3, 4, 5], []]
    ∧ ((foldNamesFrom (List.range 7) 3 3).map fun r => r.test)
        = [[0, 1, 2], [3, 4, 5], [6]] :=
  ⟨rfl, rfl, by decide, by decide, by decide, by decide⟩

/-- Claim C9 (amended): no validation takes place.  For every `n_splits ≥ 1`
the generator silently returns `n_splits` folds even when
`len(ids) < n_splits`; only `n_splits = 0` fails, and then via an incidental
`ZeroDivisionError` in `init_indices`, not a validation check. -/
theorem claim_C9_amended (cv : List ℕ) (n : ℕ) (hn : 1 ≤ n) :
    get_fold_names cv n = .ok (foldNamesCore cv n)
    ∧ (foldNamesCore cv n).length = n := by
  constructor
  · rw [get_fold_names, if_neg (by omega)]
  · rw [foldNamesCore, foldNamesFrom_eq_loop]
    exact fold_loop_length n _ _ _ n 0 _

/-- Witness for C9: 2 identifiers, 5 requested splits. -/
theorem claim_C9_witness :
    (1 : ℕ) ≤ 5
    ∧ (get_fold_names (List.range 2) 5 = .ok (foldNamesCore (List.range 2) 5)
      ∧ (foldNamesCore (List.range 2) 5).length = 5) :=
  ⟨by decide, claim_C9_amended (List.range 2) 5 (by decide)⟩

/-- Counterexample to C9 as stated: 2 identifiers with `n_splits = 5` is not
rejected; the call happily returns five folds (three of them with empty test
subsets) instead of failing loudly. -/
theorem claim_C9_counterexample :
    get_fold_names (List.range 2) 5
      = .ok [⟨[], [1], [0], 0⟩, ⟨[0], [], [1], 1⟩, ⟨[0, 1], [], [], 2⟩,
             ⟨[0, 1], [], [], 3⟩, ⟨[1], [0], [], 4⟩] := by
  rfl

/-! ## get_class_balanced_patients (dataloader_utils.py lines 255-296)

The per-slot scan over the shuffled pool (lines 275-286) is the object of
claim C5.  The ambient (unseeded) numpy randomness — `np.random.shuffle` and
the initial `np.random.randint` — is modelled by oracle parameters. -/

/-- `np.argmin`: index of the first minimum of a nonempty list (`0` for the
empty list, which the call sites never pass). -/
def argminFirst (l : List ℕ) : ℕ :=
  match l.min? with
  | none => 0
  | some m => l.indexOf m

/-- A candidate's own rarest class,
`np.argmin([np.count_nonzero(class_targets[cand] == cl) for cl in 1..nc]) + 1`
(lines 279-280); `np.argmin` breaks ties toward the lowest class id. -/
def candRarest (tgt : List ℤ) (nc : ℕ) : ℕ :=
  argminFirst ((List.range nc).map (fun i => tgt.count ((i : ℤ) + 1))) + 1

/-- The scan of one batch slot (lines 276-286).  `pick` is the running
default; any candidate with at least one RoI of class `rare` overwrites
`pick`, and the loop breaks on it iff
`(cand_rarest_class != rarest_class and count > 0) or ix < int(batch_size *
random_ratio)` (the threshold is passed in as `thresh`). -/
def scanLoop (tgts : ℕ → List ℤ) (nc rare ix thresh : ℕ) :
    List ℕ → ℕ → ℕ
  | [], pick => pick
  | c :: rest, pick =>
    if 0 < (tgts c).count (rare : ℤ) then
      if (candRarest (tgts c) nc ≠ rare ∧ 0 < (tgts c).count (rare : ℤ))
          ∨ ix < thresh then c
      else scanLoop tgts nc rare ix thresh rest c
    else scanLoop tgts nc rare ix thresh rest pick

/-- One slot's pick: `pick = not_picked[0]` (line 275) then the scan, over
the already-shuffled pool.  `none` only for an empty pool (the caller
refills before scanning). -/
def scanPick (tgts : ℕ → List ℤ) (nc rare ix thresh : ℕ)
    (pool : List ℕ) : Option ℕ :=
  match pool with
  | [] => none
  | h :: _ => some (scanLoop tgts nc rare ix thresh pool h)

/-- `int(batch_size * random_ratio)` with the float product modelled as an
exact rational (the concrete ratios used below are exactly representable in
binary floating point, so the model agrees with numpy there). -/
def randThresh (batch_size : ℕ) (random_ratio : ℚ) : ℕ :=
  (⌊(batch_size : ℚ) * random_ratio⌋).toNat

/-- The break predicate of the scan: candidate holds `rare` and
`(own rarest differs) or (fewer than thresh slots filled)`. -/
def acceptP (tgts : ℕ → List ℤ) (nc rare ix thresh c : ℕ) : Bool :=
  decide (0 < (tgts c).count (rare : ℤ)
    ∧ (candRarest (tgts c) nc ≠ rare ∨ ix < thresh))

/-- Candidate holds at least one RoI of class `rare`. -/
def holdsP (tgts : ℕ → List ℤ) (rare c : ℕ) : Bool :=
  decide (0 < (tgts c).count (rare : ℤ))

/-- The scan as claim C5 words it: accept the first candidate holding
`rare`, except that when that candidate's own rarest class equals the global
rarest class AND fewer than `thresh` slots have been filled, keep scanning
for a candidate holding `rare` whose own rarest class differs, falling back
to the first found candidate after a fruitless full scan. -/
def scanClaimed (tgts : ℕ → List ℤ) (nc rare ix thresh : ℕ)
    (pool : List ℕ) : Option ℕ :=
  match pool.find? (holdsP tgts rare) with
  | none => pool.head?
  | some c0 =>
    if candRarest (tgts c0) nc = rare ∧ ix < thresh then
      match pool.find? (fun c => holdsP tgts rare c
          && decide (candRarest (tgts c) nc ≠ rare)) with
      | some c1 => some c1
      | none => some c0
    else some c0

/-- The scan as the code actually behaves: accept the first candidate
holding `rare` whose own rarest class differs from `rare` OR with
`ix < thresh`; if no candidate breaks the loop, the last candidate holding
`rare` wins (each one overwrote `pick`), else the pool head. -/
def scanActual (tgts : ℕ → List ℤ) (nc rare ix thresh : ℕ)
    (pool : List ℕ) : Option ℕ :=
  match pool with
  | [] => none
  | h :: _ =>
    match pool.find? (acceptP tgts nc rare ix thresh) with
    | some c => some c
    | none =>
      match (pool.filter (holdsP tgts rare)).getLast? with
      | some c => some c
      | none => some h

/-- Whole-batch loop (lines 269-296), with the ambient RNG as oracles:
`shuffle ix` re-shuffles the pool at slot `ix` (line 274) and the caller
passes the `np.random.randint(1, num_classes + 1)` draw as the initial
`rare`.  Slots accumulate `class_counts`, recompute the rarest class by
first-minimum, and remove every occurrence of the pick from the pool. -/
def balancedLoop (all_pids : List ℕ) (tgts : ℕ → List ℤ) (nc thresh : ℕ)
    (shuffle : ℕ → List ℕ → List ℕ) :
    ℕ → ℕ → (ℕ → ℕ) → ℕ → List ℕ → List ℕ
  | 0, _, _, _, _ => []
  | fuel + 1, ix, counts, rare, pool0 =>
    let pool1 := if pool0.isEmpty then all_pids else pool0
    let pool := shuffle ix pool1
    let pick := (scanPick tgts nc rare ix thresh pool).getD 0
    let counts2 := fun cl : ℕ => counts cl + (tgts pick).count (cl : ℤ)
    let rare2 := argminFirst ((List.range nc).map (fun i => counts2 (i + 1))) + 1
    pick :: balancedLoop all_pids tgts nc thresh shuffle fuel (ix + 1) counts2
      rare2 (pool.filter (fun p => p ≠ pick))

/-- `get_class_balanced_patients` itself: `batch_size` slots, counts all
zero, initial rarest class drawn by the ambient RNG, pool = `all_pids`. -/
def get_class_balanced_patients (all_pids : List ℕ) (tgts : ℕ → List ℤ)
    (batch_size nc thresh rare0 : ℕ)
    (shuffle : ℕ → List ℕ → List ℕ) : List ℕ :=
  balancedLoop all_pids tgts nc thresh shuffle batch_size 0 (fun _ => 0)
    rare0 all_pids

theorem scanLoop_characterization (tgts : ℕ → List ℤ) (nc rare ix thresh : ℕ) :
    ∀ (pool : List ℕ) (pick : ℕ),
      scanLoop tgts nc rare ix thresh pool pick
        = match pool.find? (acceptP tgts nc rare ix thresh) with
          | some c => c
          | none =>
            match (pool.filter (holdsP tgts rare)).getLast? with
            | some c => c
            | none => pick := by
  intro pool
  induction pool with
  | nil => intro pick; rfl
  | cons c rest ih =>
    intro pick
    by_cases h1 : 0 < (tgts c).count (rare : ℤ)
    · by_cases h2 : candRarest (tgts c) nc ≠ rare ∨ ix < thresh
      · have hbreak : (candRarest (tgts c) nc ≠ rare
            ∧ 0 < (tgts c).count (rare : ℤ)) ∨ ix < thresh :=
          h2.elim (fun ha => Or.inl ⟨ha, h1⟩) Or.inr
        have hfind : (c :: rest).find? (acceptP tgts nc rare ix thresh)
            = some c :=
          List.find?_cons_of_pos rest (decide_eq_true ⟨h1, h2⟩)
        rw [scanLoop, if_pos h1, if_pos hbreak, hfind]
      · have hnobreak : ¬ ((candRarest (tgts c) nc ≠ rare
            ∧ 0 < (tgts c).count (rare : ℤ)) ∨ ix < thresh) :=
          fun hor => h2 (hor.elim (fun hand => Or.inl hand.1) Or.inr)
        have hfind : (c :: rest).find? (acceptP tgts nc rare ix thresh)
            = rest.find? (acceptP tgts nc rare ix thresh) :=
          List.find?_cons_of_neg rest
            (fun hc => h2 (of_decide_eq_true hc).2)
        have hfilt : (c :: rest).filter (holdsP tgts rare)
            = c :: rest.filter (holdsP tgts rare) :=
          List.filter_cons_of_pos (decide_eq_true h1)
        rw [scanLoop, if_pos h1, if_neg hnobreak, ih c, hfind, hfilt]
        cases hf : rest.find? (acceptP tgts nc rare ix thresh) with
        | some d => rfl
        | none =>
          cases hl : rest.filter (holdsP tgts rare) with
          | nil => rfl
          | cons d ds =>
            rw [List.getLast?_cons_cons]
            cases hgl : (d :: ds).getLast? with
            | some e => rfl
            | none => simp at hgl
    · have hfind : (c :: rest).find? (acceptP tgts nc rare ix thresh)
          = rest.find? (acceptP tgts nc rare ix thresh) :=
        List.find?_cons_of_neg rest
          (fun hc => h1 (of_decide_eq_true hc).1)
      have hfilt : (c :: rest).filter (holdsP tgts rare)
          = rest.filter (holdsP tgts rare) :=
        List.filter_cons_of_neg (fun hc => h1 (of_decide_eq_true hc))
      rw [scanLoop, if_neg h1, ih pick, hfind, hfilt]

/-- Claim C5 (amended): in every batch slot the scan accepts the first
candidate holding the current rarest class if fewer than
`int(batch_size * random_ratio)` slots are filled or the candidate's own
rarest class differs from the current rarest class; otherwise it keeps
scanning, and when no candidate satisfies that, it falls back to the LAST
candidate holding the rarest class (not the first), or to the pool head if
none holds it. -/
theorem claim_C5_amended (tgts : ℕ → List ℤ) (nc rare ix thresh : ℕ)
    (pool : List ℕ) :
    scanPick tgts nc rare ix thresh pool
      = scanActual tgts nc rare ix thresh pool := by
  cases pool with
  | nil => rfl
  | cons h rest =>
    rw [scanPick, scanActual, scanLoop_characterization]
    cases hf : (h :: rest).find? (acceptP tgts nc rare ix thresh) with
    | some d => rfl
    | none =>
      cases hl : ((h :: rest).filter (holdsP tgts rare)).getLast? with
      | some d => rfl
      | none => rfl

/-- Counterexample to C5 as stated: pool `[0, 1]`, two classes, current
rarest class `1`, slot `ix = 0`, `batch_size = 2`, `random_ratio = 0.5`
(threshold `1`).  Candidate `0` (targets `[1, 2, 2]`) holds class 1 and its
own rarest class is also `1`; since `ix < 1`, the claim says scanning must
continue to candidate `1` (targets `[1, 1, 2]`, own rarest `2`), but the
code breaks immediately and returns candidate `0`: the threshold comparison
is the code's *random* phase, not its picky phase. -/
theorem claim_C5_counterexample :
    scanPick (fun c => if c = 0 then [1, 2, 2] else [1, 1, 2]) 2 1 0
        (randThresh 2 (1 / 2)) [0, 1] = some 0
    ∧ scanClaimed (fun c => if c = 0 then [1, 2, 2] else [1, 1, 2]) 2 1 0
        (randThresh 2 (1 / 2)) [0, 1] = some 1
    ∧ (some 0 : Option ℕ) ≠ some 1 := by
  have ht : randThresh 2 (1 / 2) = 1 := by
    rw [randThresh]
    norm_num
  rw [ht]
  refine ⟨by decide, by decide, by decide⟩

/-! ## get_patch_crop_coords (dataloader_utils.py lines 416-455)

The float arithmetic is modelled by exact rationals: every quantity the
function computes on the inputs below is exactly representable in float64,
and `np.round` (round half to even) and `.astype(int)` (truncation toward
zero) are modelled explicitly. -/

/-- `np.round`: round half to even. -/
def roundHalfEven (q : ℚ) : ℤ :=
  if q - ⌊q⌋ < 1 / 2 then ⌊q⌋
  else if 1 / 2 < q - ⌊q⌋ then ⌊q⌋ + 1
  else if Even ⌊q⌋ then ⌊q⌋ else ⌊q⌋ + 1

/-- `.astype(int)`: truncation toward zero. -/
def truncToInt (q : ℚ) : ℤ := if q < 0 then ⌈q⌉ else ⌊q⌋

/-- `int(np.ceil(img.shape[dim] / patch_size[dim]))` (line 426). -/
def nPatchesInit (shape ps : ℕ) : ℕ := (shape + ps - 1) / ps

/-- The patch count after the single `min_overlap` adjustment
(lines 436-438): one increment when `patch_size - center_dists <
min_overlap`; the recomputed spacing is NOT re-checked. -/
def nFinal (shape ps ov : ℕ) : ℕ :=
  let n1 := nPatchesInit shape ps
  if n1 = 1 then 1
  else if (ps : ℚ) - ((shape : ℚ) - ps) / ((n1 : ℚ) - 1) < (ov : ℚ)
  then n1 + 1 else n1

/-- The per-axis crop coordinate list (lines 425-442) in exact rational
arithmetic, before the final `.astype(int)`: centers
`np.round(ps/2 + center_dists * ii)`, bounds `center ± ps/2`. -/
def dimCropCoordsQ (shape ps ov : ℕ) : List (ℚ × ℚ) :=
  if nPatchesInit shape ps = 1 then [((0 : ℚ), (shape : ℚ))]
  else
    let n2 := nFinal shape ps ov
    let cd : ℚ := ((shape : ℚ) - ps) / ((n2 : ℚ) - 1)
    (List.range n2).map (fun ii : ℕ =>
      let c : ℚ := ((roundHalfEven ((ps : ℚ) / 2 + cd * (ii : ℚ)) : ℤ) : ℚ)
      (c - (ps : ℚ) / 2, c + (ps : ℚ) / 2))

/-- Per-axis coordinates after `.astype(int)` (line 455). -/
def dimCropCoords (shape ps ov : ℕ) : List (ℤ × ℤ) :=
  (dimCropCoordsQ shape ps ov).map (fun p => (truncToInt p.1, truncToInt p.2))

/-- One emitted record `[ymin, ymax, xmin, xmax]` of the 2D mesh. -/
structure PatchRec2 where
  y1 : ℤ
  y2 : ℤ
  x1 : ℤ
  x2 : ℤ
deriving DecidableEq, Repr

/-- `get_patch_crop_coords` for a 2D image (lines 444-455): the Cartesian
product of the per-axis coordinate lists in axis-0-major order, truncated to
int at the end.  (The 3D mesh composes the same per-axis lists — plus a
per-slice enumeration when `patch_size[2] == 1` — and is orthogonal to the
per-axis coverage and overlap properties at issue.) -/
def get_patch_crop_coords2 (sh0 sh1 ps0 ps1 ov : ℕ) : List PatchRec2 :=
  (dimCropCoordsQ sh0 ps0 ov).flatMap (fun yb =>
    (dimCropCoordsQ sh1 ps1 ov).map (fun xb =>
      ⟨truncToInt yb.1, truncToInt yb.2, truncToInt xb.1, truncToInt xb.2⟩))

/-- The exact center of patch `ii` on an axis, as the code computes it
(line 433): `np.round(patch_size/2 + center_dists * ii)`. -/
def centerZ (shape ps ov : ℕ) (ii : ℕ) : ℤ :=
  roundHalfEven ((ps : ℚ) / 2 + ((shape : ℚ) - ps) / ((nFinal shape ps ov : ℚ) - 1) * (ii : ℚ))

/-- Coverage of `[0, shape)` by a per-axis coordinate list. -/
def coversAxis (L : List (ℤ × ℤ)) (shape : ℕ) : Prop :=
  ∀ v : ℤ, 0 ≤ v → v < (shape : ℤ) → ∃ p ∈ L, p.1 ≤ v ∧ v < p.2

/-- Adjacent patches of a per-axis coordinate list overlap by at least
`ov` voxels. -/
def overlapsAxis (L : List (ℤ × ℤ)) (ov : ℕ) : Prop :=
  ∀ i : ℕ, i + 1 < L.length →
    (ov : ℤ) ≤ (L.getD i (0, 0)).2 - (L.getD (i + 1) (0, 0)).1

theorem roundHalfEven_intCast (z : ℤ) : roundHalfEven (z : ℚ) = z := by
  rw [roundHalfEven, Int.floor_intCast]
  rw [if_pos (by norm_num)]

theorem roundHalfEven_le (q : ℚ) : (roundHalfEven q : ℚ) ≤ q + 1 / 2 := by
  have h1 := Int.floor_le q
  have h2 := Int.lt_floor_add_one q
  rw [roundHalfEven]
  split_ifs <;> push_cast <;> linarith

theorem le_roundHalfEven (q : ℚ) : q - 1 / 2 ≤ (roundHalfEven q : ℚ) := by
  have h1 := Int.floor_le q
  have h2 := Int.lt_floor_add_one q
  rw [roundHalfEven]
  split_ifs <;> push_cast <;> linarith

theorem roundHalfEven_add_half_even (z : ℤ) (hz : Even z) :
    roundHalfEven ((z : ℚ) + 1 / 2) = z := by
  have hf : ⌊(z : ℚ) + 1 / 2⌋ = z := by
    rw [Int.floor_eq_iff]
    constructor <;> linarith
  rw [roundHalfEven, hf]
  have harg : ((z : ℚ) + 1 / 2) - z = 1 / 2 := by ring
  rw [harg, if_neg (by norm_num), if_neg (by norm_num), if_pos hz]

theorem truncToInt_intCast (z : ℤ) : truncToInt (z : ℚ) = z := by
  rw [truncToInt]
  split_ifs <;> simp


theorem truncToInt_natCast (n : ℕ) : truncToInt (n : ℚ) = (n : ℤ) := by
  rw [show ((n : ℕ) : ℚ) = (((n : ℤ)) : ℚ) from by push_cast; ring]
  exact truncToInt_intCast _

theorem truncToInt_zero : truncToInt (0 : ℚ) = 0 := by
  rw [truncToInt, if_neg (by norm_num), Int.floor_zero]

/-- The gap between two consecutive rounded centers at integer offset `zx`:
if the exact spacing `cd` is at most `bound`, consecutive centers are at
most `bound` apart (exact when `cd` is an integer; via the floor otherwise). -/
theorem roundDiff_le (cd : ℚ) (zx bound : ℤ) (hb : cd ≤ (bound : ℚ)) (i : ℕ) :
    roundHalfEven ((zx : ℚ) + cd * ((i : ℚ) + 1)) - roundHalfEven ((zx : ℚ) + cd * (i : ℚ))
      ≤ bound := by
  by_cases hint : ∃ z : ℤ, cd = (z : ℚ)
  · obtain ⟨z, hz⟩ := hint
    have h1 : (zx : ℚ) + cd * ((i : ℚ) + 1) = ((zx + z * i + z : ℤ) : ℚ) := by
      rw [hz]; push_cast; ring
    have h2 : (zx : ℚ) + cd * (i : ℚ) = ((zx + z * i : ℤ) : ℚ) := by
      rw [hz]; push_cast; ring
    have hzb : z ≤ bound := by
      have h3 : (z : ℚ) ≤ (bound : ℚ) := by rw [← hz]; exact hb
      exact_mod_cast h3
    rw [h1, h2, roundHalfEven_intCast, roundHalfEven_intCast]
    omega
  · have hub := roundHalfEven_le ((zx : ℚ) + cd * ((i : ℚ) + 1))
    have hlb := le_roundHalfEven ((zx : ℚ) + cd * (i : ℚ))
    have hfl : (⌊cd⌋ : ℚ) < cd := by
      rcases lt_or_eq_of_le (Int.floor_le cd) with h | h
      · exact h
      · exact absurd ⟨⌊cd⌋, h.symm⟩ hint
    have hflb : ⌊cd⌋ + 1 ≤ bound := by
      have h2 : (⌊cd⌋ : ℚ) < (bound : ℚ) := lt_of_lt_of_le hfl hb
      have h3 : ⌊cd⌋ < bound := by exact_mod_cast h2
      omega
    have hAB : (zx : ℚ) + cd * ((i : ℚ) + 1) = ((zx : ℚ) + cd * (i : ℚ)) + cd := by ring
    have hd : ((roundHalfEven ((zx : ℚ) + cd * ((i : ℚ) + 1))
        - roundHalfEven ((zx : ℚ) + cd * (i : ℚ)) : ℤ) : ℚ) ≤ cd + 1 := by
      push_cast
      linarith [hub, hlb, hAB]
    have hd2 : roundHalfEven ((zx : ℚ) + cd * ((i : ℚ) + 1))
        - roundHalfEven ((zx : ℚ) + cd * (i : ℚ)) ≤ ⌊cd⌋ + 1 := by
      have h4 := Int.le_floor.mpr hd
      rwa [Int.floor_add_one] at h4
    omega

theorem nFinal_two_le (sh ps ov : ℕ) (hps : 0 < ps) (hsh : 0 < sh)
    (hn1 : nPatchesInit sh ps ≠ 1) : 2 ≤ nFinal sh ps ov := by
  have h1 : 1 ≤ nPatchesInit sh ps := by
    rw [nPatchesInit, Nat.one_le_div_iff hps]
    omega
  have h2 : 2 ≤ nPatchesInit sh ps := by omega
  rw [nFinal]
  rw [if_neg hn1]
  split_ifs <;> omega

/-- For even patch size the per-axis integer coordinates are exactly
`center ± ps/2` with `center = centerZ`: the float bounds are integers, so
`.astype(int)` is the identity on them. -/
theorem dimCropCoords_eq_centers (sh ps ov m : ℕ) (hn1 : nPatchesInit sh ps ≠ 1)
    (hps : ps = 2 * m) :
    dimCropCoords sh ps ov
      = (List.range (nFinal sh ps ov)).map
          (fun i => (centerZ sh ps ov i - m, centerZ sh ps ov i + m)) := by
  rw [dimCropCoords, dimCropCoordsQ, if_neg hn1]
  dsimp only
  rw [List.map_map]
  refine List.map_congr_left (fun i _ => ?_)
  dsimp only [Function.comp]
  have hhalf : (ps : ℚ) / 2 = ((m : ℤ) : ℚ) := by rw [hps]; push_cast; ring
  rw [centerZ]
  rw [hhalf]
  have hA : truncToInt ((roundHalfEven (((m : ℤ) : ℚ)
      + ((sh : ℚ) - ps) / ((nFinal sh ps ov : ℚ) - 1) * (i : ℚ)) : ℤ) - ((m : ℤ) : ℚ))
      = roundHalfEven (((m : ℤ) : ℚ)
        + ((sh : ℚ) - ps) / ((nFinal sh ps ov : ℚ) - 1) * (i : ℚ)) - (m : ℤ) := by
    rw [show ((roundHalfEven (((m : ℤ) : ℚ)
        + ((sh : ℚ) - ps) / ((nFinal sh ps ov : ℚ) - 1) * (i : ℚ)) : ℤ) : ℚ) - ((m : ℤ) : ℚ)
      = ((roundHalfEven (((m : ℤ) : ℚ)
        + ((sh : ℚ) - ps) / ((nFinal sh ps ov : ℚ) - 1) * (i : ℚ)) - (m : ℤ) : ℤ) : ℚ)
      from by push_cast; ring]
    exact truncToInt_intCast _
  have hB : truncToInt ((roundHalfEven (((m : ℤ) : ℚ)
      + ((sh : ℚ) - ps) / ((nFinal sh ps ov : ℚ) - 1) * (i : ℚ)) : ℤ) + ((m : ℤ) : ℚ))
      = roundHalfEven (((m : ℤ) : ℚ)
        + ((sh : ℚ) - ps) / ((nFinal sh ps ov : ℚ) - 1) * (i : ℚ)) + (m : ℤ) := by
    rw [show ((roundHalfEven (((m : ℤ) : ℚ)
        + ((sh : ℚ) - ps) / ((nFinal sh ps ov : ℚ) - 1) * (i : ℚ)) : ℤ) : ℚ) + ((m : ℤ) : ℚ)
      = ((roundHalfEven (((m : ℤ) : ℚ)
        + ((sh : ℚ) - ps) / ((nFinal sh ps ov : ℚ) - 1) * (i : ℚ)) + (m : ℤ) : ℤ) : ℚ)
      from by push_cast; ring]
    exact truncToInt_intCast _
  rw [hA, hB]

/-- The first center is exactly `ps/2` (the argument of `np.round` is an
integer when `ps` is even, and rounding an integer is the identity). -/
theorem centerZ_zero (sh ps ov m : ℕ) (hps : ps = 2 * m) :
    centerZ sh ps ov 0 = m := by
  have h : (ps : ℚ) / 2 + ((sh : ℚ) - ps) / ((nFinal sh ps ov : ℚ) - 1) * ((0 : ℕ) : ℚ)
      = ((m : ℤ) : ℚ) := by
    rw [hps]; push_cast; ring
  rw [centerZ, h, roundHalfEven_intCast]

/-- The last center is exactly `shape - ps/2`: the spacing times the last
index telescopes to `shape - ps` exactly. -/
theorem centerZ_last (sh ps ov m : ℕ) (hps : ps = 2 * m)
    (hn2 : 2 ≤ nFinal sh ps ov) :
    centerZ sh ps ov (nFinal sh ps ov - 1) = (sh : ℤ) - m := by
  have h2q : (2 : ℚ) ≤ (nFinal sh ps ov : ℚ) := by exact_mod_cast hn2
  have hne : (nFinal sh ps ov : ℚ) - 1 ≠ 0 := by
    intro h0
    rw [sub_eq_zero] at h0
    rw [h0] at h2q
    norm_num at h2q
  have h1 : 1 ≤ nFinal sh ps ov := by omega
  have hcast : ((nFinal sh ps ov - 1 : ℕ) : ℚ) = (nFinal sh ps ov : ℚ) - 1 := by
    rw [Nat.cast_sub h1, Nat.cast_one]
  have hmul : ((sh : ℚ) - ps) / ((nFinal sh ps ov : ℚ) - 1) * ((nFinal sh ps ov : ℚ) - 1)
      = (sh : ℚ) - ps := div_mul_cancel₀ _ hne
  have h : (ps : ℚ) / 2
      + ((sh : ℚ) - ps) / ((nFinal sh ps ov : ℚ) - 1) * ((nFinal sh ps ov - 1 : ℕ) : ℚ)
      = (((sh : ℤ) - m : ℤ) : ℚ) := by
    rw [hcast, hmul, hps]
    push_cast
    ring
  rw [centerZ, h, roundHalfEven_intCast]

/-- Consecutive centers are at most `bound` apart whenever the exact
spacing is. -/
theorem centerZ_succ_sub_le (sh ps ov m : ℕ) (hps : ps = 2 * m) (bound : ℤ)
    (hb : ((sh : ℚ) - ps) / ((nFinal sh ps ov : ℚ) - 1) ≤ (bound : ℚ)) (i : ℕ) :
    centerZ sh ps ov (i + 1) - centerZ sh ps ov i ≤ bound := by
  have hx : (ps : ℚ) / 2 = ((m : ℤ) : ℚ) := by rw [hps]; push_cast; ring
  have h1 : centerZ sh ps ov (i + 1)
      = roundHalfEven (((m : ℤ) : ℚ)
        + ((sh : ℚ) - ps) / ((nFinal sh ps ov : ℚ) - 1) * ((i : ℚ) + 1)) := by
    rw [centerZ, hx, Nat.cast_add_one]
  have h2 : centerZ sh ps ov i
      = roundHalfEven (((m : ℤ) : ℚ)
        + ((sh : ℚ) - ps) / ((nFinal sh ps ov : ℚ) - 1) * (i : ℚ)) := by
    rw [centerZ, hx]
  rw [h1, h2]
  exact roundDiff_le _ _ bound hb i

theorem dimCropCoords_ne_nil (sh ps ov : ℕ) (hps : 0 < ps) (hsh : 0 < sh) :
    dimCropCoords sh ps ov ≠ [] := by
  rw [dimCropCoords, dimCropCoordsQ]
  by_cases h : nPatchesInit sh ps = 1
  · rw [if_pos h]
    simp
  · rw [if_neg h]
    dsimp only
    have h2 := nFinal_two_le sh ps ov hps hsh h
    simp only [ne_eq, List.map_eq_nil_iff, List.range_eq_nil]
    omega


/-- The search predicate for the coverage argument: patch `j` starts at or
before voxel `v`. -/
def coverP (sh ps ov m : ℕ) (v : ℤ) (j : ℕ) : Prop :=
  centerZ sh ps ov j - (m : ℤ) ≤ v

instance instDecidableCoverP (sh ps ov m : ℕ) (v : ℤ) :
    DecidablePred (coverP sh ps ov m v) :=
  fun j => inferInstanceAs (Decidable (centerZ sh ps ov j - (m : ℤ) ≤ v))

/-- Per-axis correctness under the amended hypotheses: even patch size and
the spacing condition `shape - ps <= (n_patches - 1) * (ps - min_overlap)`
(which the code does NOT re-check after its single `n_patches` increment). -/
theorem dimCropCoords_covers_overlaps (sh ps ov m : ℕ) (hps : ps = 2 * m)
    (hm : 0 < m) (hsh : 0 < sh)
    (hsp : (sh : ℤ) - ps ≤ ((nFinal sh ps ov : ℤ) - 1) * ((ps : ℤ) - ov)) :
    coversAxis (dimCropCoords sh ps ov) sh ∧
    overlapsAxis (dimCropCoords sh ps ov) ov := by
  by_cases hn1 : nPatchesInit sh ps = 1
  · have hL : dimCropCoords sh ps ov = [((0 : ℤ), (sh : ℤ))] := by
      rw [dimCropCoords, dimCropCoordsQ, if_pos hn1]
      simp only [List.map_cons, List.map_nil]
      rw [truncToInt_zero, truncToInt_natCast]
    constructor
    · intro v hv0 hvs
      exact ⟨((0 : ℤ), (sh : ℤ)), by rw [hL]; exact List.mem_singleton_self _, hv0, hvs⟩
    · intro i hi
      rw [hL] at hi
      simp at hi
  · have hps0 : 0 < ps := by omega
    have hn2 : 2 ≤ nFinal sh ps ov := nFinal_two_le sh ps ov hps0 hsh hn1
    have hL := dimCropCoords_eq_centers sh ps ov m hn1 hps
    have hc0 := centerZ_zero sh ps ov m hps
    have hclast := centerZ_last sh ps ov m hps hn2
    have h2q : (2 : ℚ) ≤ (nFinal sh ps ov : ℚ) := by exact_mod_cast hn2
    have hpos : (0 : ℚ) < (nFinal sh ps ov : ℚ) - 1 := by linarith
    have hcd : ((sh : ℚ) - ps) / ((nFinal sh ps ov : ℚ) - 1) ≤ (((ps : ℤ) - ov : ℤ) : ℚ) := by
      rw [div_le_iff₀ hpos]
      have hspq : (sh : ℚ) - ps ≤ ((nFinal sh ps ov : ℚ) - 1) * ((ps : ℚ) - ov) := by
        exact_mod_cast hsp
      push_cast
      nlinarith [hspq]
    have hcdps : ((sh : ℚ) - ps) / ((nFinal sh ps ov : ℚ) - 1) ≤ (((ps : ℕ) : ℤ) : ℚ) := by
      refine le_trans hcd ?_
      push_cast
      have hnn : (0 : ℚ) ≤ (ov : ℚ) := Nat.cast_nonneg ov
      linarith
    constructor
    · intro v hv0 hvs
      have hP0 : coverP sh ps ov m v 0 := by
        show centerZ sh ps ov 0 - (m : ℤ) ≤ v
        rw [hc0]
        omega
      have hPk : coverP sh ps ov m v
          (Nat.findGreatest (coverP sh ps ov m v) (nFinal sh ps ov - 1)) :=
        Nat.findGreatest_spec (Nat.zero_le _) hP0
      have hkle : Nat.findGreatest (coverP sh ps ov m v) (nFinal sh ps ov - 1)
          ≤ nFinal sh ps ov - 1 :=
        Nat.findGreatest_le _
      set k := Nat.findGreatest (coverP sh ps ov m v) (nFinal sh ps ov - 1) with hkdef
      have hPk2 : centerZ sh ps ov k - (m : ℤ) ≤ v := hPk
      refine ⟨(centerZ sh ps ov k - m, centerZ sh ps ov k + m), ?_, hPk2, ?_⟩
      · rw [hL]
        exact List.mem_map.mpr ⟨k, List.mem_range.mpr (by omega), rfl⟩
      · by_cases hk : k = nFinal sh ps ov - 1
        · rw [hk, hclast]
          omega
        · have hk1b : k + 1 ≤ nFinal sh ps ov - 1 := by omega
          have hnP : ¬ coverP sh ps ov m v (k + 1) :=
            Nat.findGreatest_is_greatest (by omega) hk1b
          have hnP2 : ¬ (centerZ sh ps ov (k + 1) - (m : ℤ) ≤ v) := hnP
          have hdiff : centerZ sh ps ov (k + 1) - centerZ sh ps ov k ≤ ((ps : ℕ) : ℤ) :=
            centerZ_succ_sub_le sh ps ov m hps _ hcdps k
          omega
    · intro i hi
      rw [hL] at hi ⊢
      simp only [List.length_map, List.length_range] at hi
      have hgi : ((List.range (nFinal sh ps ov)).map
            (fun j => (centerZ sh ps ov j - m, centerZ sh ps ov j + m))).getD i (0, 0)
          = (centerZ sh ps ov i - m, centerZ sh ps ov i + m) := by
        rw [List.getD_eq_getElem _ _ (by simp only [List.length_map, List.length_range]; omega)]
        simp
      have hgi1 : ((List.range (nFinal sh ps ov)).map
            (fun j => (centerZ sh ps ov j - m, centerZ sh ps ov j + m))).getD (i + 1) (0, 0)
          = (centerZ sh ps ov (i + 1) - m, centerZ sh ps ov (i + 1) + m) := by
        rw [List.getD_eq_getElem _ _ (by simp only [List.length_map, List.length_range]; omega)]
        simp
      rw [hgi, hgi1]
      have hdiff : centerZ sh ps ov (i + 1) - centerZ sh ps ov i ≤ (ps : ℤ) - ov :=
        centerZ_succ_sub_le sh ps ov m hps _ hcd i
      omega


/-- A record of the 2D mesh from a bound pair of each axis. -/
theorem mem_get_patch_crop_coords2 (sh0 sh1 ps0 ps1 ov : ℕ)
    (yb xb : ℤ × ℤ) (hy : yb ∈ dimCropCoords sh0 ps0 ov)
    (hx : xb ∈ dimCropCoords sh1 ps1 ov) :
    (⟨yb.1, yb.2, xb.1, xb.2⟩ : PatchRec2) ∈ get_patch_crop_coords2 sh0 sh1 ps0 ps1 ov := by
  rw [dimCropCoords] at hy hx
  obtain ⟨yq, hyq, hyeq⟩ := List.mem_map.mp hy
  obtain ⟨xq, hxq, hxeq⟩ := List.mem_map.mp hx
  rw [get_patch_crop_coords2]
  refine List.mem_flatMap.mpr ⟨yq, hyq, ?_⟩
  refine List.mem_map.mpr ⟨xq, hxq, ?_⟩
  subst hyeq
  subst hxeq
  rfl

/-- Rational-level evaluation of the axis `shape = 9`, `patch_size = 5`,
`min_overlap = 1`: two patches with float bounds `(-0.5, 4.5)` and
`(3.5, 8.5)` (centers `np.round(2.5) = 2` and `np.round(6.5) = 6` by
round-half-to-even). -/
theorem dimCropCoordsQ_9_5_1 :
    dimCropCoordsQ 9 5 1 = [(-(1 / 2 : ℚ), 9 / 2), (7 / 2, 17 / 2)] := by
  have hn1 : nPatchesInit 9 5 = 2 := by decide
  have hn2 : nFinal 9 5 1 = 2 := by
    rw [nFinal, hn1]
    rw [if_neg (by omega), if_neg (by norm_num)]
  have hr0 : roundHalfEven ((5 : ℚ) / 2 + (9 - 5) / (2 - 1) * 0) = 2 := by
    have harg : ((5 : ℚ) / 2 + (9 - 5) / (2 - 1) * 0) = ((2 : ℤ) : ℚ) + 1 / 2 := by
      push_cast
      norm_num
    rw [harg, roundHalfEven_add_half_even 2 (by decide)]
  have hr1 : roundHalfEven ((5 : ℚ) / 2 + (9 - 5) / (2 - 1) * 1) = 6 := by
    have harg : ((5 : ℚ) / 2 + (9 - 5) / (2 - 1) * 1) = ((6 : ℤ) : ℚ) + 1 / 2 := by
      push_cast
      norm_num
    rw [harg, roundHalfEven_add_half_even 6 (by decide)]
  rw [dimCropCoordsQ, if_neg (by rw [hn1]; omega), hn2]
  dsimp only
  rw [show List.range 2 = [0, 1] from rfl]
  simp only [List.map_cons, List.map_nil]
  push_cast at hr0 hr1 ⊢
  rw [hr0, hr1]
  norm_num

theorem truncToInt_neg_half : truncToInt (-(1 / 2) : ℚ) = 0 := by
  rw [truncToInt, if_pos (by norm_num)]
  rw [Int.ceil_eq_iff]
  norm_num

theorem truncToInt_nine_halves : truncToInt (9 / 2 : ℚ) = 4 := by
  rw [truncToInt, if_neg (by norm_num)]
  rw [Int.floor_eq_iff]
  norm_num

theorem truncToInt_seven_halves : truncToInt (7 / 2 : ℚ) = 3 := by
  rw [truncToInt, if_neg (by norm_num)]
  rw [Int.floor_eq_iff]
  norm_num

theorem truncToInt_seventeen_halves : truncToInt (17 / 2 : ℚ) = 8 := by
  rw [truncToInt, if_neg (by norm_num)]
  rw [Int.floor_eq_iff]
  norm_num

/-- C2: the cover-all-voxels half of the claim fails for odd patch sizes.
For a 9x9 image, patch size 5x5, min_overlap 1, the emitted mesh is
exactly four records whose axis-0 ranges are [0,4) and [3,8): no record
covers row 8, so the patches do not cover [0, 9) — round-half-to-even
pulls both centers down and `.astype(int)` truncates `8.5` to `8`. -/
theorem claim_C2_counterexample :
    get_patch_crop_coords2 9 9 5 5 1
      = [⟨0, 4, 0, 4⟩, ⟨0, 4, 3, 8⟩, ⟨3, 8, 0, 4⟩, ⟨3, 8, 3, 8⟩]
    ∧ ((get_patch_crop_coords2 9 9 5 5 1).all
        fun r => decide (8 < r.y1) || decide (r.y2 ≤ 8)) = true := by
  have hmesh : get_patch_crop_coords2 9 9 5 5 1
      = [⟨0, 4, 0, 4⟩, ⟨0, 4, 3, 8⟩, ⟨3, 8, 0, 4⟩, ⟨3, 8, 3, 8⟩] := by
    rw [get_patch_crop_coords2, dimCropCoordsQ_9_5_1]
    simp only [List.flatMap_cons, List.flatMap_nil, List.map_cons, List.map_nil,
      List.append_nil, List.cons_append, List.nil_append]
    rw [truncToInt_neg_half, truncToInt_nine_halves, truncToInt_seven_halves,
      truncToInt_seventeen_halves]
  exact ⟨hmesh, by rw [hmesh]; decide⟩

/-- Integer-level evaluation of the axis `(9, 5, 1)` after `.astype(int)`:
patches `[0, 4)` and `[3, 8)` — voxel `8` is left uncovered. -/
theorem dimCropCoords_9_5_1 : dimCropCoords 9 5 1 = [(0, 4), (3, 8)] := by
  rw [dimCropCoords, dimCropCoordsQ_9_5_1]
  simp only [List.map_cons, List.map_nil]
  rw [truncToInt_neg_half, truncToInt_nine_halves, truncToInt_seven_halves,
    truncToInt_seventeen_halves]

/-- C2 (amended): for EVEN patch sizes on both axes and under the spacing
condition `shape - ps <= (n_patches - 1) * (ps - min_overlap)` per axis
(which the code's single `n_patches` increment does not guarantee in
general), the emitted records cover `[0, shape)` on each axis and any two
adjacent patches of an axis overlap by at least `min_overlap` voxels. -/
theorem claim_C2_amended (sh0 sh1 ps0 ps1 ov m0 m1 : ℕ)
    (hps0 : ps0 = 2 * m0) (hm0 : 0 < m0) (hsh0 : 0 < sh0)
    (hsp0 : (sh0 : ℤ) - ps0 ≤ ((nFinal sh0 ps0 ov : ℤ) - 1) * ((ps0 : ℤ) - ov))
    (hps1 : ps1 = 2 * m1) (hm1 : 0 < m1) (hsh1 : 0 < sh1)
    (hsp1 : (sh1 : ℤ) - ps1 ≤ ((nFinal sh1 ps1 ov : ℤ) - 1) * ((ps1 : ℤ) - ov)) :
    (∀ v : ℤ, 0 ≤ v → v < (sh0 : ℤ) →
      ∃ r ∈ get_patch_crop_coords2 sh0 sh1 ps0 ps1 ov, r.y1 ≤ v ∧ v < r.y2)
    ∧ (∀ v : ℤ, 0 ≤ v → v < (sh1 : ℤ) →
      ∃ r ∈ get_patch_crop_coords2 sh0 sh1 ps0 ps1 ov, r.x1 ≤ v ∧ v < r.x2)
    ∧ overlapsAxis (dimCropCoords sh0 ps0 ov) ov
    ∧ overlapsAxis (dimCropCoords sh1 ps1 ov) ov := by
  obtain ⟨hcov0, hover0⟩ := dimCropCoords_covers_overlaps sh0 ps0 ov m0 hps0 hm0 hsh0 hsp0
  obtain ⟨hcov1, hover1⟩ := dimCropCoords_covers_overlaps sh1 ps1 ov m1 hps1 hm1 hsh1 hsp1
  have hne0 : dimCropCoords sh0 ps0 ov ≠ [] := dimCropCoords_ne_nil sh0 ps0 ov (by omega) hsh0
  have hne1 : dimCropCoords sh1 ps1 ov ≠ [] := dimCropCoords_ne_nil sh1 ps1 ov (by omega) hsh1
  refine ⟨?_, ?_, hover0, hover1⟩
  · intro v hv0 hvs
    obtain ⟨yb, hyb, hyb1, hyb2⟩ := hcov0 v hv0 hvs
    obtain ⟨xb, hxb⟩ := List.exists_mem_of_ne_nil _ hne1
    exact ⟨⟨yb.1, yb.2, xb.1, xb.2⟩,
      mem_get_patch_crop_coords2 sh0 sh1 ps0 ps1 ov yb xb hyb hxb, hyb1, hyb2⟩
  · intro v hv0 hvs
    obtain ⟨xb, hxb, hxb1, hxb2⟩ := hcov1 v hv0 hvs
    obtain ⟨yb, hyb⟩ := List.exists_mem_of_ne_nil _ hne0
    exact ⟨⟨yb.1, yb.2, xb.1, xb.2⟩,
      mem_get_patch_crop_coords2 sh0 sh1 ps0 ps1 ov yb xb hyb hxb, hxb1, hxb2⟩

/-- Witness for C2 at `image_shape = (6, 6)`, `patch_size = (4, 4)`,
`min_overlap = 1`: the hypotheses hold and the theorem applies. -/
theorem claim_C2_witness :
    ((6 : ℤ) - 4 ≤ ((nFinal 6 4 1 : ℤ) - 1) * ((4 : ℤ) - 1))
    ∧ ((∀ v : ℤ, 0 ≤ v → v < (6 : ℤ) →
        ∃ r ∈ get_patch_crop_coords2 6 6 4 4 1, r.y1 ≤ v ∧ v < r.y2)
      ∧ (∀ v : ℤ, 0 ≤ v → v < (6 : ℤ) →
        ∃ r ∈ get_patch_crop_coords2 6 6 4 4 1, r.x1 ≤ v ∧ v < r.x2)
      ∧ overlapsAxis (dimCropCoords 6 4 1) 1
      ∧ overlapsAxis (dimCropCoords 6 4 1) 1) := by
  have hn1 : nPatchesInit 6 4 = 2 := by decide
  have hnf : nFinal 6 4 1 = 2 := by
    rw [nFinal, hn1]
    rw [if_neg (by omega), if_neg (by push_cast; norm_num)]
  have hsp : (6 : ℤ) - 4 ≤ ((nFinal 6 4 1 : ℤ) - 1) * ((4 : ℤ) - 1) := by
    rw [hnf]
    decide
  exact ⟨hsp, claim_C2_amended 6 6 4 4 1 2 2 rfl (by decide) (by decide) hsp
    rfl (by decide) (by decide) hsp⟩

/-! ### C3: `pad_nd_image` (lines 459-520), `new_shape` path with
`return_slicer=True` and `shape_must_be_divisible_by=None` (the path the
claim quantifies over; the divisibility branch is skipped entirely when
that argument is `None`, lines 497-508). -/

/-- An n-dimensional array: a shape and a total valuation on index lists
(only indices below the shape are meaningful). -/
structure NdArray (α : Type) where
  shape : List ℕ
  val : List ℕ → α

/-- Modelled from the spec: `np.pad(image, pad_list, mode="edge")` (line
514) grows every axis by the requested amounts below and above; the
interior is shifted by the below-padding and out-of-range reads clamp to
the nearest edge. -/
def npPad {α : Type} (img : NdArray α) (below above : List ℕ) : NdArray α where
  shape := List.zipWith (fun sb a => sb + a)
    (List.zipWith (fun s b => s + b) img.shape below) above
  val := fun idx => img.val (List.zipWith (fun p s => min p (s - 1))
    (List.zipWith (fun i b => i - b) idx below) img.shape)

/-- Lines 482-520 (with `new_shape = T`, `return_slicer = True`,
`shape_must_be_divisible_by = None`): effective target
`max(new_shape[i], old_shape[i])` per trailing axis, `difference // 2`
below, `difference // 2 + difference % 2` above, and the slicer
`slice(pad_below[d], res.shape[d] - pad_above[d])` per axis. -/
def pad_nd_image {α : Type} (img : NdArray α) (T : List ℕ) :
    NdArray α × List (ℕ × ℕ) :=
  let k := img.shape.length - T.length
  let old := img.shape.drop k
  let eff := List.zipWith max T old
  let diff := List.zipWith (fun e s => e - s) eff old
  let below := List.replicate k 0 ++ diff.map (fun d => d / 2)
  let above := List.replicate k 0 ++ diff.map (fun d => d / 2 + d % 2)
  let res := npPad img below above
  (res, List.zipWith (fun b sa => (b, sa.1 - sa.2)) below (res.shape.zip above))

/-- Cropping back: per axis take `[start, stop)` of the padded array. -/
def applySlicer {α : Type} (res : NdArray α) (slicer : List (ℕ × ℕ)) : NdArray α where
  shape := slicer.map (fun p => p.2 - p.1)
  val := fun idx => res.val (List.zipWith (fun i p => i + p.1) idx slicer)

/-- The below-padding of axis `d` as the code computes it. -/
def padBelowAt {α : Type} (img : NdArray α) (T : List ℕ) (d : ℕ) : ℕ :=
  if d < img.shape.length - T.length then 0
  else (max (T.getD (d - (img.shape.length - T.length)) 0) (img.shape.getD d 0)
    - img.shape.getD d 0) / 2

/-- The above-padding of axis `d` as the code computes it. -/
def padAboveAt {α : Type} (img : NdArray α) (T : List ℕ) (d : ℕ) : ℕ :=
  if d < img.shape.length - T.length then 0
  else
    (max (T.getD (d - (img.shape.length - T.length)) 0) (img.shape.getD d 0)
      - img.shape.getD d 0) / 2
    + (max (T.getD (d - (img.shape.length - T.length)) 0) (img.shape.getD d 0)
      - img.shape.getD d 0) % 2

/-- `getD` of the code's padded per-axis list (`[[0,0]]*num_axes_nopad ++
zip(pad_below, pad_above)`), one projection at a time: generic in the
post-processing `f` of the per-axis difference. -/
theorem padList_getD (shape T : List ℕ) (hT : T.length ≤ shape.length)
    (f : ℕ → ℕ) (d : ℕ) (hd : d < shape.length) :
    (List.replicate (shape.length - T.length) 0
      ++ (List.zipWith (fun e s => e - s)
        (List.zipWith max T (shape.drop (shape.length - T.length)))
        (shape.drop (shape.length - T.length))).map f).getD d 0
    = if d < shape.length - T.length then 0
      else f (max (T.getD (d - (shape.length - T.length)) 0) (shape.getD d 0)
        - shape.getD d 0) := by
  have hold : (shape.drop (shape.length - T.length)).length = T.length := by
    rw [List.length_drop]
    omega
  by_cases hdk : d < shape.length - T.length
  · rw [if_pos hdk]
    rw [List.getD_append _ _ _ _ (by rw [List.length_replicate]; omega)]
    rw [List.getD_eq_getElem _ _ (by rw [List.length_replicate]; omega)]
    rw [List.getElem_replicate]
  · rw [if_neg hdk]
    rw [List.getD_append_right _ _ _ _ (by rw [List.length_replicate]; omega)]
    rw [List.length_replicate]
    have hdT : d - (shape.length - T.length) < T.length := by omega
    rw [List.getD_eq_getElem _ _ (by
      rw [List.length_map, List.length_zipWith, List.length_zipWith, hold]
      omega)]
    rw [List.getElem_map, List.getElem_zipWith, List.getElem_zipWith]
    have hb1 : d - (shape.length - T.length)
        < (List.drop (shape.length - T.length) shape).length := by
      rw [hold]
      omega
    have hdrop : (List.drop (shape.length - T.length) shape)[d - (shape.length - T.length)]
        = shape.getD d 0 := by
      rw [List.getElem_drop]
      rw [List.getD_eq_getElem _ _ (by omega)]
      congr 1
      omega
    rw [hdrop]
    rw [List.getD_eq_getElem T 0 (by omega)]

/-- C3 (confirmed): padding with `new_shape = T` and `return_slicer=True`
(no divisibility constraint) round-trips: cropping the result with the
returned slicer restores the original shape and every in-range value, and
the trailing axes of the result have length `max(T[d], image.shape[d])`
exactly (the function never crops). The hypothesis `len(T) <= image.ndim`
is the documented usage domain of the `new_shape` argument. -/
theorem claim_C3 (α : Type) (img : NdArray α) (T : List ℕ)
    (hT : T.length ≤ img.shape.length) :
    (applySlicer (pad_nd_image img T).1 (pad_nd_image img T).2).shape = img.shape
    ∧ (∀ idx : List ℕ, List.Forall₂ (· < ·) idx img.shape →
        (applySlicer (pad_nd_image img T).1 (pad_nd_image img T).2).val idx
          = img.val idx)
    ∧ (pad_nd_image img T).1.shape.drop (img.shape.length - T.length)
        = List.zipWith max T (img.shape.drop (img.shape.length - T.length)) := by
  have hold : (img.shape.drop (img.shape.length - T.length)).length = T.length := by
    rw [List.length_drop]
    omega
  rw [pad_nd_image]
  dsimp only [npPad, applySlicer]
  refine ⟨?_, ?_, ?_⟩
  · refine List.ext_getElem ?_ ?_
    · simp only [List.length_map, List.length_zipWith, List.length_zip,
        List.length_append, List.length_replicate, List.length_drop, hold]
      omega
    · intro d h1 h2
      rw [List.getElem_map, List.getElem_zipWith, List.getElem_zip,
        List.getElem_zipWith, List.getElem_zipWith]
      dsimp only
      omega
  · intro idx hidx
    have hlen := List.Forall₂.length_eq hidx
    obtain ⟨-, hget⟩ := List.forall₂_iff_get.mp hidx
    refine congrArg img.val (List.ext_getElem ?_ ?_)
    · simp only [List.length_zipWith, List.length_zip, List.length_append,
        List.length_replicate, List.length_map, List.length_drop, hlen, hold]
      omega
    · intro d h1 h2
      rw [List.getElem_zipWith, List.getElem_zipWith, List.getElem_zipWith,
        List.getElem_zipWith]
      dsimp only
      have hd : d < img.shape.length := by omega
      have hlt : idx[d] < img.shape[d] := by
        have h5 := hget d (by omega) (by omega)
        rw [List.get_eq_getElem, List.get_eq_getElem] at h5
        exact h5
      rw [min_def]
      split_ifs <;> omega
  · refine List.ext_getElem ?_ ?_
    · simp only [List.length_drop, List.length_zipWith, List.length_zip,
        List.length_append, List.length_replicate, List.length_map, hold]
      omega
    · intro j h1 h2
      have hj2 : j < T.length := by
        rw [List.length_zipWith, hold] at h2
        omega
      have hd : img.shape.length - T.length + j < img.shape.length := by omega
      rw [List.getElem_drop, List.getElem_zipWith, List.getElem_zipWith,
        List.getElem_zipWith]
      have hb := padList_getD img.shape T hT (fun x => x / 2)
        (img.shape.length - T.length + j) hd
      have ha := padList_getD img.shape T hT (fun x => x / 2 + x % 2)
        (img.shape.length - T.length + j) hd
      rw [List.getD_eq_getElem _ _ (by
        simp only [List.length_append, List.length_replicate, List.length_map,
          List.length_zipWith, hold]
        omega)] at hb
      rw [List.getD_eq_getElem _ _ (by
        simp only [List.length_append, List.length_replicate, List.length_map,
          List.length_zipWith, hold]
        omega)] at ha
      rw [hb, ha]
      rw [if_neg (by omega), if_neg (by omega)]
      have hjj : img.shape.length - T.length + j - (img.shape.length - T.length) = j := by
        omega
      rw [hjj]
      rw [List.getD_eq_getElem T 0 hj2]
      rw [List.getD_eq_getElem img.shape 0 hd]
      rw [List.getElem_drop]
      dsimp only
      omega

/-- Concrete instance for the C3 witness: a 2x3 array of distinct values. -/
def img23 : NdArray ℕ := ⟨[2, 3], fun idx => 10 * idx.getD 0 0 + idx.getD 1 0⟩

/-- Witness for C3 at `image.shape = (2, 3)`, `new_shape = (4,)`. -/
theorem claim_C3_witness :
    (([4] : List ℕ).length ≤ img23.shape.length)
    ∧ ((applySlicer (pad_nd_image img23 [4]).1 (pad_nd_image img23 [4]).2).shape
        = img23.shape
      ∧ (∀ idx : List ℕ, List.Forall₂ (· < ·) idx img23.shape →
          (applySlicer (pad_nd_image img23 [4]).1 (pad_nd_image img23 [4]).2).val idx
            = img23.val idx)
      ∧ (pad_nd_image img23 [4]).1.shape.drop
            (img23.shape.length - ([4] : List ℕ).length)
          = List.zipWith max [4]
            (img23.shape.drop (img23.shape.length - ([4] : List ℕ).length))) :=
  ⟨by decide, claim_C3 ℕ img23 [4] (by decide)⟩

/-! ### C4, C6, C10: `convert_seg_to_bounding_box_coordinates`
(lines 522-606), per-sample loop body for `dim = 2`,
`roi_item_keys = ("class_targets",)`, `class_specific_seg = False`.
A sample segmentation `seg[b]` is a `(channel, y, x)` integer array. -/

/-- A per-sample segmentation array `seg[b]`, indexed `[channel][y][x]`. -/
def Seg : Type := List (List (List ℤ))

/-- All cells of the array as `(c, y, x, value)`, in C (row-major) order —
the order `np.argwhere` reports indices in. -/
def segCells (s : Seg) : List (ℕ × ℕ × ℕ × ℤ) :=
  s.enum.flatMap (fun cp =>
    cp.2.enum.flatMap (fun yr =>
      yr.2.enum.map (fun xv => (cp.1, yr.1, xv.1, xv.2))))

/-- `np.argwhere(seg == t)` (line 558): the coordinates holding value `t`,
in C order. -/
def segPositions (s : Seg) (t : ℤ) : List (ℕ × ℕ × ℕ) :=
  ((segCells s).filter (fun q => decide (q.2.2.2 = t))).map
    (fun q => (q.1, q.2.1, q.2.2.1))

/-- `np.sum(seg != 0) > 0` (line 546). -/
def segHasForeground (s : Seg) : Bool :=
  (segCells s).any (fun q => decide (q.2.2.2 ≠ 0))

/-- `np.max(seg)` (line 552; the sample is nonempty whenever used). -/
def segMax (s : Seg) : ℤ :=
  (((segCells s).map (fun q => q.2.2.2)).max?).getD 0

/-- The emitted `coord_list` (lines 559-560) for `dim = 2`:
`[min_y - 1, min_x - 1, max_y + 1, max_x + 1]`, unclamped. -/
def roiCoords (ps : List (ℕ × ℕ × ℕ)) : List ℤ :=
  [(((ps.map (fun p => p.2.1)).min?.getD 0 : ℕ) : ℤ) - 1,
   (((ps.map (fun p => p.2.2)).min?.getD 0 : ℕ) : ℤ) - 1,
   (((ps.map (fun p => p.2.1)).max?.getD 0 : ℕ) : ℤ) + 1,
   (((ps.map (fun p => p.2.2)).max?.getD 0 : ℕ) : ℤ) + 1]

/-- The per-sample output: `p_coords_list`, `p_roi_masks_list` (each mask
kept as its set of coordinates) and `p_roi_items_lists["class_targets"]`. -/
structure SampleOut where
  bb : List (List ℤ)
  masks : List (List (ℕ × ℕ × ℕ))
  items : List ℤ
deriving DecidableEq, Repr

/-- One iteration of the `for rix, r in enumerate(rois)` loop (lines
555-575): a vanished roi contributes nothing; otherwise the coords, mask
and class target are appended and the assert `class_targets[b][rix] >= 1`
fires (an out-of-range `rix` raises IndexError at the item lookup). -/
def processRoi (s : Seg) (targets : List ℤ) (acc : SampleOut) (rix : ℕ) :
    Except String SampleOut :=
  let ps := segPositions s ((rix : ℤ) + 1)
  if ps = [] then .ok acc
  else if rix < targets.length then
    let t := targets.getD rix 0
    let acc2 : SampleOut :=
      ⟨acc.bb ++ [roiCoords ps], acc.masks ++ [ps], acc.items ++ [t]⟩
    if 1 ≤ t then .ok acc2 else .error "AssertionError"
  else .error "IndexError"

def roisLoop (s : Seg) (targets : List ℤ) :
    List ℕ → SampleOut → Except String SampleOut
  | [], acc => .ok acc
  | rix :: rest, acc =>
    match processRoi s targets acc rix with
    | .error e => .error e
    | .ok acc2 => roisLoop s targets rest acc2

/-- The per-sample conversion with `get_rois_from_seg = False` (lines
546-575): `n_cands = int(np.max(seg))`, rois are `seg == rix + 1`. -/
def convertSampleSeg (s : Seg) (targets : List ℤ) : Except String SampleOut :=
  if segHasForeground s then
    roisLoop s targets (List.range (segMax s).toNat) ⟨[], [], []⟩
  else .ok ⟨[], [], []⟩

/-- Modelled from the spec: face adjacency of two cells — the default
connectivity structure of `scipy.ndimage.label`. -/
def adjacentCell (p q : ℕ × ℕ × ℕ) : Bool :=
  decide ((p.1 = q.1 ∧ p.2.1 = q.2.1 ∧ (p.2.2 + 1 = q.2.2 ∨ q.2.2 + 1 = p.2.2))
    ∨ (p.1 = q.1 ∧ p.2.2 = q.2.2 ∧ (p.2.1 + 1 = q.2.1 ∨ q.2.1 + 1 = p.2.1))
    ∨ (p.2.1 = q.2.1 ∧ p.2.2 = q.2.2 ∧ (p.1 + 1 = q.1 ∨ q.1 + 1 = p.1)))

/-- Modelled from the spec: one closure step of the reachable set inside
`cells`. -/
def reachStep (cells comp : List (ℕ × ℕ × ℕ)) : List (ℕ × ℕ × ℕ) :=
  comp ++ cells.filter (fun c =>
    decide (¬ c ∈ comp) && comp.any (fun d => adjacentCell c d))

/-- Modelled from the spec: cells of `cells` connected to `c` within `n`
steps. -/
def reachN (cells : List (ℕ × ℕ × ℕ)) : ℕ → (ℕ × ℕ × ℕ) → List (ℕ × ℕ × ℕ)
  | 0, c => [c]
  | n + 1, c => reachStep cells (reachN cells n c)

/-- Modelled from the spec: the number of connected components that
`scipy.ndimage.label` (`lb`, line 547) finds in the foreground mask, under
face connectivity: a cell opens a new component iff no earlier cell (in C
order) is connected to it. -/
def ccCount (s : Seg) : ℕ :=
  let cells := ((segCells s).filter (fun q => decide (q.2.2.2 ≠ 0))).map
    (fun q => (q.1, q.2.1, q.2.2.1))
  ((List.range cells.length).filter (fun i =>
    (cells.take i).all (fun d =>
      decide (¬ d ∈ reachN cells cells.length (cells.getD i (0, 0, 0)))))).length

/-- The per-sample conversion with `get_rois_from_seg = True` (lines
547-553): `n_cands` comes from the labeling, `class_targets[b]` is
replicated `n_cands` times, but the rois are still built from the RAW
values of `seg` (`seg == ii`, line 553) — the `clusters` array returned by
`lb` is discarded. -/
def convertSampleClassmap (s : Seg) (t0 : ℤ) : Except String SampleOut :=
  if segHasForeground s then
    roisLoop s (List.replicate (ccCount s) t0) (List.range (ccCount s)) ⟨[], [], []⟩
  else .ok ⟨[], [], []⟩

/-- C6 (code bug): with `derive_rois_from_classmap` set, the emitted ROIs
are NOT the connected components: for the one-channel class mask
`[[1, 0, 1]]` the labeling finds 2 components, but the code discards the
cluster array and derives rois from the raw values, so a SINGLE roi is
emitted whose mask contains both components (and whose box spans the gap);
the second candidate (`seg == 2`) is empty and silently dropped. -/
theorem claim_C6 :
    ccCount [[[1, 0, 1]]] = 2
    ∧ convertSampleClassmap [[[1, 0, 1]]] 1
      = .ok ⟨[[-1, -1, 1, 3]], [[(0, 0, 0), (0, 0, 2)]], [1]⟩ :=
  ⟨rfl, rfl⟩

/-- Inversion of one roi step: an `ok` result is either a vanished roi
(accumulator unchanged) or an appended roi with an in-range class target
that passed the `>= 1` assert. -/
theorem processRoi_ok (s : Seg) (targets : List ℤ) (acc : SampleOut) (rix : ℕ)
    (acc2 : SampleOut) (hp : processRoi s targets acc rix = .ok acc2) :
    (segPositions s ((rix : ℤ) + 1) = [] ∧ acc2 = acc)
    ∨ (segPositions s ((rix : ℤ) + 1) ≠ [] ∧ rix < targets.length
      ∧ 1 ≤ targets.getD rix 0
      ∧ acc2 = ⟨acc.bb ++ [roiCoords (segPositions s ((rix : ℤ) + 1))],
          acc.masks ++ [segPositions s ((rix : ℤ) + 1)],
          acc.items ++ [targets.getD rix 0]⟩) := by
  rw [processRoi] at hp
  by_cases hps : segPositions s ((rix : ℤ) + 1) = []
  · rw [if_pos hps] at hp
    exact .inl ⟨hps, (Except.ok.inj hp).symm⟩
  · rw [if_neg hps] at hp
    by_cases hlen : rix < targets.length
    · rw [if_pos hlen] at hp
      by_cases ht : 1 ≤ targets.getD rix 0
      · rw [if_pos ht] at hp
        exact .inr ⟨hps, hlen, ht, (Except.ok.inj hp).symm⟩
      · rw [if_neg ht] at hp
        exact absurd hp (by simp)
    · rw [if_neg hlen] at hp
      exact absurd hp (by simp)

/-- Loop invariant for C4: an `ok` run only ever appends class targets
that passed the assert, and every roi index of the worklist that survives
slicing has an in-range target `>= 1`. -/
theorem roisLoop_items (s : Seg) (targets : List ℤ) (l : List ℕ)
    (acc out : SampleOut) (h : roisLoop s targets l acc = .ok out) :
    (∀ t ∈ out.items, t ∈ acc.items ∨ 1 ≤ t)
    ∧ ∀ rix ∈ l, segPositions s ((rix : ℤ) + 1) ≠ [] →
        rix < targets.length ∧ 1 ≤ targets.getD rix 0 := by
  induction l generalizing acc with
  | nil =>
    rw [roisLoop] at h
    obtain rfl := Except.ok.inj h
    exact ⟨fun t ht => .inl ht, fun r hr => absurd hr (List.not_mem_nil r)⟩
  | cons rix rest ih =>
    rw [roisLoop] at h
    rcases hp : processRoi s targets acc rix with e | acc2
    · rw [hp] at h
      simp at h
    · rw [hp] at h
      dsimp only at h
      obtain ⟨h1, h2⟩ := ih acc2 h
      rcases processRoi_ok s targets acc rix acc2 hp with ⟨hps, rfl⟩ | ⟨hps, hlen, ht, rfl⟩
      · refine ⟨h1, ?_⟩
        intro r hr hps2
        rcases List.mem_cons.mp hr with rfl | hr2
        · exact absurd hps hps2
        · exact h2 r hr2 hps2
      · constructor
        · intro t htm
          rcases h1 t htm with hin | hge
          · rcases List.mem_append.mp hin with ha | hb
            · exact .inl ha
            · rw [List.mem_singleton] at hb
              exact .inr (hb ▸ ht)
          · exact .inr hge
        · intro r hr hps2
          rcases List.mem_cons.mp hr with rfl | hr2
          · exact ⟨hlen, ht⟩
          · exact h2 r hr2 hps2

/-- A nonempty position list for a nonzero value means the sample has
foreground. -/
theorem foreground_of_positions (s : Seg) (t : ℤ) (ht0 : t ≠ 0)
    (h : segPositions s t ≠ []) : segHasForeground s = true := by
  rw [segPositions] at h
  have hne : ((segCells s).filter (fun q => decide (q.2.2.2 = t))) ≠ [] := by
    intro h0
    rw [h0] at h
    exact h rfl
  obtain ⟨q, hq⟩ := List.exists_mem_of_ne_nil _ hne
  have hqmem := List.mem_filter.mp hq
  rw [segHasForeground, List.any_eq_true]
  refine ⟨q, hqmem.1, decide_eq_true ?_⟩
  have hqt := of_decide_eq_true hqmem.2
  rw [hqt]
  exact ht0

/-- C4 (confirmed): in every `ok` result every emitted class target is
`>= 1`, and every roi whose mask survives has an in-range target `>= 1` —
so a surviving roi with target 0 can only end in an AssertionError (lines
562-575: the assert fires in the same iteration that would emit it, and
the exception aborts the whole call; nothing is emitted or dropped
silently). -/
theorem claim_C4 (s : Seg) (targets : List ℤ) (out : SampleOut)
    (h : convertSampleSeg s targets = .ok out) :
    (∀ t ∈ out.items, 1 ≤ t)
    ∧ ∀ rix : ℕ, rix < (segMax s).toNat → segPositions s ((rix : ℤ) + 1) ≠ [] →
        rix < targets.length ∧ 1 ≤ targets.getD rix 0 := by
  rw [convertSampleSeg] at h
  by_cases hf : segHasForeground s = true
  · rw [if_pos hf] at h
    obtain ⟨h1, h2⟩ :=
      roisLoop_items s targets (List.range (segMax s).toNat) ⟨[], [], []⟩ out h
    constructor
    · intro t ht
      rcases h1 t ht with hin | hge
      · exact absurd hin (List.not_mem_nil t)
      · exact hge
    · intro rix hr hps
      exact h2 rix (List.mem_range.mpr hr) hps
  · rw [if_neg hf] at h
    obtain rfl := Except.ok.inj h
    constructor
    · intro t ht
      exact absurd ht (List.not_mem_nil t)
    · intro rix hr hps
      exact absurd (foreground_of_positions s _ (by omega) hps) hf

/-- Concrete C4 witness input: two one-voxel rois with targets 3 and 5. -/
def outC4 : SampleOut :=
  ⟨[[-1, -1, 1, 1], [-1, 0, 1, 2]], [[(0, 0, 0)], [(0, 0, 1)]], [3, 5]⟩

/-- Witness for C4 at `seg = [[1, 2]]`, `class_targets = [3, 5]`. -/
theorem claim_C4_witness :
    convertSampleSeg [[[1, 2]]] [3, 5] = .ok outC4
    ∧ ((∀ t ∈ outC4.items, 1 ≤ t)
      ∧ ∀ rix : ℕ, rix < (segMax [[[1, 2]]]).toNat →
          segPositions [[[1, 2]]] ((rix : ℤ) + 1) ≠ [] →
          rix < ([3, 5] : List ℤ).length ∧ 1 ≤ ([3, 5] : List ℤ).getD rix 0) :=
  ⟨rfl, claim_C4 [[[1, 2]]] [3, 5] outC4 rfl⟩

/-- The C10 loop invariant: boxes and masks correspond pairwise, every box
being `roiCoords` of its mask. -/
def bbInv (a : SampleOut) : Prop :=
  a.bb.length = a.masks.length
  ∧ ∀ i, i < a.bb.length → a.bb.getD i [] = roiCoords (a.masks.getD i [])

theorem roisLoop_coords (s : Seg) (targets : List ℤ) (l : List ℕ)
    (acc out : SampleOut) (h : roisLoop s targets l acc = .ok out)
    (hinv : bbInv acc) : bbInv out := by
  induction l generalizing acc with
  | nil =>
    rw [roisLoop] at h
    obtain rfl := Except.ok.inj h
    exact hinv
  | cons rix rest ih =>
    rw [roisLoop] at h
    rcases hp : processRoi s targets acc rix with e | acc2
    · rw [hp] at h
      simp at h
    · rw [hp] at h
      dsimp only at h
      refine ih acc2 h ?_
      rcases processRoi_ok s targets acc rix acc2 hp with ⟨hps, rfl⟩ | ⟨hps, hlen, ht, rfl⟩
      · exact hinv
      · obtain ⟨hl, hv⟩ := hinv
        constructor
        · show (acc.bb ++ _).length = (acc.masks ++ _).length
          simp only [List.length_append, List.length_singleton, hl]
        · intro i hi
          have hi2 : i < acc.bb.length + 1 := by
            have := hi
            simp only [List.length_append, List.length_cons, List.length_nil] at this
            omega
          by_cases hlt : i < acc.bb.length
          · show (acc.bb ++ _).getD i [] = roiCoords ((acc.masks ++ _).getD i [])
            rw [List.getD_append _ _ _ _ hlt, List.getD_append _ _ _ _ (by omega)]
            exact hv i hlt
          · show (acc.bb ++ _).getD i [] = roiCoords ((acc.masks ++ _).getD i [])
            rw [List.getD_append_right _ _ _ _ (by omega),
              List.getD_append_right _ _ _ _ (by omega)]
            have he1 : i - acc.bb.length = 0 := by omega
            have he2 : i - acc.masks.length = 0 := by omega
            rw [he1, he2]
            rfl

theorem foldl_min_zero (l : List ℕ) (acc : ℕ) (h : acc = 0 ∨ 0 ∈ l) :
    l.foldl min acc = 0 := by
  induction l generalizing acc with
  | nil =>
    rcases h with rfl | h0
    · rfl
    · cases h0
  | cons a l ih =>
    rw [List.foldl_cons]
    rcases h with rfl | h0
    · exact ih _ (.inl (by simp))
    · rcases List.mem_cons.mp h0 with rfl | h1
      · exact ih _ (.inl (by simp))
      · exact ih _ (.inr h1)

/-- `min?.getD 0` of a list of naturals containing `0` is `0`. -/
theorem min_getD_zero_of_mem (l : List ℕ) (h : 0 ∈ l) : l.min?.getD 0 = 0 := by
  cases l with
  | nil => cases h
  | cons a l =>
    have hc : (a :: l).min? = some (List.foldl min a l) := rfl
    rw [hc, Option.getD_some]
    refine foldl_min_zero l a ?_
    rcases List.mem_cons.mp h with h0 | h1
    · exact .inl h0.symm
    · exact .inr h1

/-- C10 (confirmed): every emitted box is exactly
`[min_y - 1, min_x - 1, max_y + 1, max_x + 1]` of its mask with no
clamping, so a roi touching the lower border of the y axis gets the
out-of-range minimum coordinate `-1`. -/
theorem claim_C10 (s : Seg) (targets : List ℤ) (out : SampleOut)
    (h : convertSampleSeg s targets = .ok out) :
    out.bb.length = out.masks.length
    ∧ ∀ i, i < out.bb.length →
        out.bb.getD i [] = roiCoords (out.masks.getD i [])
        ∧ ((∃ p ∈ out.masks.getD i [], p.2.1 = 0) →
            (out.bb.getD i []).getD 0 0 = -1) := by
  have hinv : bbInv out := by
    rw [convertSampleSeg] at h
    by_cases hf : segHasForeground s = true
    · rw [if_pos hf] at h
      refine roisLoop_coords s targets _ ⟨[], [], []⟩ out h ⟨rfl, ?_⟩
      intro i hi
      exact absurd hi (by simp)
    · rw [if_neg hf] at h
      obtain rfl := Except.ok.inj h
      exact ⟨rfl, fun i hi => absurd hi (by simp)⟩
  obtain ⟨hl, hv⟩ := hinv
  refine ⟨hl, fun i hi => ⟨hv i hi, ?_⟩⟩
  rintro ⟨p, hp, hp0⟩
  rw [hv i hi, roiCoords]
  have hy : ((out.masks.getD i []).map (fun p => p.2.1)).min?.getD 0 = 0 := by
    refine min_getD_zero_of_mem _ ?_
    exact List.mem_map.mpr ⟨p, hp, hp0⟩
  rw [List.getD_cons_zero, hy]
  rfl

/-- Concrete C10 witness output: one roi touching the top border. -/
def outC10 : SampleOut := ⟨[[-1, -1, 1, 1]], [[(0, 0, 0)]], [3]⟩

/-- Witness for C10 at `seg = [[1], [0]]` (the roi touches row `y = 0`),
`class_targets = [3]`. -/
theorem claim_C10_witness :
    convertSampleSeg [[[1], [0]]] [3] = .ok outC10
    ∧ (outC10.bb.length = outC10.masks.length
      ∧ ∀ i, i < outC10.bb.length →
          outC10.bb.getD i [] = roiCoords (outC10.masks.getD i [])
          ∧ ((∃ p ∈ outC10.masks.getD i [], p.2.1 = 0) →
              (outC10.bb.getD i []).getD 0 0 = -1)) :=
  ⟨rfl, claim_C10 [[[1], [0]]] [3] outC10 rfl⟩

end DLU
